import Mathlib

/-
Verification of the dual-splay-tree bimap of src/bimap.h.

The container keeps one set of pair records threaded through two binary
search trees: a Left tree ordered by the left values and a Right tree
ordered by the right values.  The embedding represents each tree as an
inductive binary tree of record identifiers and keeps the record values in
an association list, so that the two trees share records exactly as the
node_t pointers of the source do.  Both value types are instantiated at
Nat with the default less-than order, matching the std::less template
defaults of the source.

The bottom-up splay loop of the source walks parent pointers; here the
path from the tree root down to a node is recorded explicitly as a list of
steps, and the loop consumes that path two entries at a time exactly as
the while loop of the source consumes parent and grandparent.
-/

namespace BimapImpl

/-- Binary tree of record identifiers. One value of this type plays the Left
tree and another the Right tree; the identifier stored in a node names the
shared pair record, mirroring the node_t pointers of the source. -/
inductive Tree where
  | nil : Tree
  | node : Tree → Nat → Tree → Tree
deriving DecidableEq, Repr

/-- In-order list of the record identifiers of a tree. -/
def inorder : Tree → List Nat
  | .nil => []
  | .node a b c => inorder a ++ b :: inorder c

/-- Identifier at the root of a tree, or none for the empty tree. -/
def rootId : Tree → Option Nat
  | .nil => none
  | .node _ b _ => some b

/-- One entry of the path from a node up to the tree root: on which side the
node hangs, the parent identifier, and the sibling subtree. This is the
information the source reads through parent pointers during splay. -/
inductive Step where
  | fromLeft : Nat → Tree → Step
  | fromRight : Nat → Tree → Step
deriving DecidableEq, Repr

/-- Single rotation applied when the parent is the tree root: rotate_right of
the source for a left child, rotate_left for a right child. -/
def zigStep (t : Tree) (s : Step) : Tree :=
  match t, s with
  | .nil, _ => .nil
  | .node a x b, .fromLeft p c => .node a x (.node b p c)
  | .node a x b, .fromRight p c => .node (.node c p a) x b

/-- Double rotation for one zig-zig or zig-zag turn of the splay loop, chosen
by the sides on which the node and its parent hang, with the rotation order of
the source (parent before node in the zig-zig cases). -/
def doubleStep (t : Tree) (s1 s2 : Step) : Tree :=
  match t, s1, s2 with
  | .nil, _, _ => .nil
  | .node a x b, .fromLeft p cp, .fromLeft g cg =>
      .node a x (.node b p (.node cp g cg))
  | .node a x b, .fromRight p ap, .fromLeft g cg =>
      .node (.node ap p a) x (.node b g cg)
  | .node a x b, .fromLeft p cp, .fromRight g ag =>
      .node (.node ag g a) x (.node b p cp)
  | .node a x b, .fromRight p ap, .fromRight g ag =>
      .node (.node (.node ag g ap) p a) x b

/-- Bottom-up splay loop over the recorded parent path, exactly the while loop
of splay in the source: a final single rotation when only the tree root remains
above the node, a double rotation otherwise. -/
def splayGo : Tree → List Step → Tree
  | t, [] => t
  | t, [s] => zigStep t s
  | t, s1 :: s2 :: rest => splayGo (doubleStep t s1 s2) rest

/-- Identifier sequence obtained by plugging a subtree sequence back into a
parent path: each path entry contributes its parent identifier and the in-order
identifiers of the sibling subtree on the proper side. -/
def wrapIds : List Nat → List Step → List Nat
  | l, [] => l
  | l, .fromLeft p c :: rest => wrapIds (l ++ p :: inorder c) rest
  | l, .fromRight p a :: rest => wrapIds (inorder a ++ p :: l) rest

/-- Part of wrapIds that ends up before the plugged subtree. -/
def wrapL : List Nat → List Step → List Nat
  | l, [] => l
  | l, .fromLeft _ _ :: rest => wrapL l rest
  | l, .fromRight p a :: rest => wrapL (inorder a ++ p :: l) rest

/-- Part of wrapIds that ends up after the plugged subtree. -/
def wrapR : List Nat → List Step → List Nat
  | l, [] => l
  | l, .fromLeft p c :: rest => wrapR (l ++ p :: inorder c) rest
  | l, .fromRight _ _ :: rest => wrapR l rest

/-- Descent of find in the source: go to the left child while the probe is
smaller and a left child exists, to the right child while the probe is larger
and a right child exists, recording the path; stop otherwise. -/
def descend (v : Nat → Nat) (x : Nat) : Tree → List Step → Tree × List Step
  | .nil, ctx => (.nil, ctx)
  | .node a b c, ctx =>
    if x < v b ∧ a ≠ .nil then descend v x a (.fromLeft b c :: ctx)
    else if v b < x ∧ c ≠ .nil then descend v x c (.fromRight b a :: ctx)
    else (.node a b c, ctx)

/-- Find of the source: descend by the comparator as far as possible, then
splay the last visited node to the root of the tree. -/
def find (v : Nat → Nat) (t : Tree) (x : Nat) : Tree :=
  let p := descend v x t []
  splayGo p.1 p.2

/-- Locate the subtree rooted at a given record identifier together with the
path above it; this recovers the information the source reads from the node
pointer and its parent chain. -/
def descendTo (target : Nat) : Tree → List Step → Option (Tree × List Step)
  | .nil, _ => none
  | .node a b c, ctx =>
    if b = target then some (.node a b c, ctx)
    else
      match descendTo target a (.fromLeft b c :: ctx) with
      | some r => some r
      | none => descendTo target c (.fromRight b a :: ctx)

/-- Splay of the source applied to a given node: rotate the node up the
recorded parent path until it is the tree root. -/
def splay (t : Tree) (target : Nat) : Tree :=
  match descendTo target t [] with
  | some p => splayGo p.1 p.2
  | none => t

/-- Identifier of the leftmost node, as sink_left of the source. -/
def sinkLeftId : Tree → Option Nat
  | .nil => none
  | .node a b _ =>
    match sinkLeftId a with
    | some m => some m
    | none => some b

/-- Identifier of the rightmost node, as sink_right of the source. -/
def sinkRightId : Tree → Option Nat
  | .nil => none
  | .node _ b c =>
    match sinkRightId c with
    | some m => some m
    | none => some b

/-- Subtree hanging at the node with the given identifier. Walking child
pointers from a node of the source corresponds to walking this subtree. -/
def subtreeAt : Tree → Nat → Option Tree
  | .nil, _ => none
  | .node a b c, i =>
    if b = i then some (.node a b c)
    else
      match subtreeAt a i with
      | some s => some s
      | none => subtreeAt c i

/-- Split of the source: find the probe, then detach the right subtree of the
new root when its value is not greater than the probe, the left subtree
otherwise. -/
def split (v : Nat → Nat) (t : Tree) (x : Nat) : Tree × Tree :=
  match find v t x with
  | .nil => (.nil, .nil)
  | .node a b c =>
    if ¬ x < v b then (.node a b .nil, c) else (a, .node .nil b c)

/-- Insert of the source at tree level: split at the value of the new node and
make the new node the root with the two parts as children. -/
def insertNode (v : Nat → Nat) (t : Tree) (n : Nat) (w : Nat) : Tree :=
  let p := split v t w
  .node p.1 n p.2

/-- Merge of the source: find the value of the left root inside the right tree
and attach the whole left tree as the left child of the resulting root,
overwriting the previous left child exactly as the assignment in the source
does. -/
def merge (v : Nat → Nat) (a b : Tree) : Tree :=
  match a, b with
  | .nil, _ => b
  | _, .nil => a
  | .node al ra ar, bb =>
    match find v bb (v ra) with
    | .nil => .nil
    | .node _ c r2 => .node (.node al ra ar) c r2

/-- Erase of the source applied to a tree root: replace the tree by the merge
of the two subtrees of its root. -/
def eraseRoot (v : Nat → Nat) : Tree → Tree
  | .nil => .nil
  | .node a _ c => merge v a c

/-- Values held by one pair record, the payload of node_t. -/
structure RecordV where
  left_value : Nat
  right_value : Nat
deriving DecidableEq, Repr

/-- State of one bimap: the record store, a fresh-identifier counter standing
for the allocator, the two tree roots and the element count, as the data
members of the source class. -/
structure bimap where
  recs : List (Nat × RecordV)
  next_id : Nat
  left_root : Tree
  right_root : Tree
  elements_count : Nat
deriving DecidableEq, Repr

/-- Record lookup in the store; unallocated identifiers give a dummy record,
never reached through the public operations on well-formed states. -/
def lookupRec : List (Nat × RecordV) → Nat → RecordV
  | [], _ => ⟨0, 0⟩
  | (j, r) :: rest, i => if j = i then r else lookupRec rest i

/-- Left value of a record identifier. -/
def lv (b : bimap) (i : Nat) : Nat := (lookupRec b.recs i).left_value

/-- Right value of a record identifier. -/
def rv (b : bimap) (i : Nat) : Nat := (lookupRec b.recs i).right_value

/-- The default-constructed bimap: empty store, both roots null, count 0. -/
def emptyBimap : bimap := ⟨[], 0, .nil, .nil, 0⟩

/-- In-order identifiers of the Left tree. -/
def leftIds (b : bimap) : List Nat := inorder b.left_root

/-- In-order identifiers of the Right tree. -/
def rightIds (b : bimap) : List Nat := inorder b.right_root

/-- Left values in Left-tree order. -/
def leftVals (b : bimap) : List Nat := (leftIds b).map (lv b)

/-- Right values in Right-tree order. -/
def rightVals (b : bimap) : List Nat := (rightIds b).map (rv b)

/-- Live pairs of the container in Left-tree order. -/
def content (b : bimap) : List (Nat × Nat) :=
  (leftIds b).map (fun i => (lv b i, rv b i))

/-- Root of the tree holds exactly the probed value: the negation of the
null-or-different test insert_by_values applies to each splayed root. -/
def rootValIs (v : Nat → Nat) (t : Tree) (x : Nat) : Bool :=
  match t with
  | .nil => false
  | .node _ i _ => v i == x

/-- insert_by_values of the source: splay both probes, then allocate and
insert into both trees only when neither side already holds its key; on
conflict return no node and keep only the incidental splays. -/
def insert_by_values (b : bimap) (l r : Nat) : bimap × Option Nat :=
  let lt := find (lv b) b.left_root l
  let rt := find (rv b) b.right_root r
  if rootValIs (lv b) lt l || rootValIs (rv b) rt r then
    ({ b with left_root := lt, right_root := rt }, none)
  else
    let n := b.next_id
    ({ recs := (n, ⟨l, r⟩) :: b.recs
     , next_id := n + 1
     , left_root := insertNode (lv b) lt n l
     , right_root := insertNode (rv b) rt n r
     , elements_count := b.elements_count + 1 }, some n)

/-- find_left of the source via find_element: splay the probe, update the root
when a node was visited, and hand out the node only on an exact value match. -/
def find_left (b : bimap) (k : Nat) : bimap × Option Nat :=
  match find (lv b) b.left_root k with
  | .nil => (b, none)
  | .node a i c =>
    ({ b with left_root := .node a i c }, if lv b i = k then some i else none)

/-- find_right of the source, the mirror of find_left. -/
def find_right (b : bimap) (k : Nat) : bimap × Option Nat :=
  match find (rv b) b.right_root k with
  | .nil => (b, none)
  | .node a i c =>
    ({ b with right_root := .node a i c }, if rv b i = k then some i else none)

/-- Result of erase_element at tree level: the two updated roots and the
identifier of the detached record, if any. -/
structure EraseOut where
  root1 : Tree
  root2 : Tree
  erased : Option Nat
deriving DecidableEq, Repr

/-- erase_element of the source, generic over the two sides: find the key in
the first tree, splay the found node in the second tree as well, and when the
value matches detach the node from both trees by merging its subtrees. -/
def erase_element (v1 v2 : Nat → Nat) (t1 t2 : Tree) (k : Nat) : EraseOut :=
  let f1 := find v1 t1 k
  let f2 :=
    match rootId f1 with
    | none => Tree.nil
    | some i => splay t2 i
  match f1 with
  | .nil => ⟨.nil, f2, none⟩
  | .node a i c =>
    if v1 i = k then ⟨merge v1 a c, eraseRoot v2 f2, some i⟩
    else ⟨.node a i c, f2, none⟩

/-- erase_left by key of the source: erase_element driven with the Left tree
first; on success the record is freed and the count decremented. -/
def erase_left_key (b : bimap) (k : Nat) : bimap × Bool :=
  let e := erase_element (lv b) (rv b) b.left_root b.right_root k
  match e.erased with
  | some i =>
    ({ recs := b.recs.filter (fun p => p.1 != i)
     , next_id := b.next_id
     , left_root := e.root1
     , right_root := e.root2
     , elements_count := b.elements_count - 1 }, true)
  | none => ({ b with left_root := e.root1, right_root := e.root2 }, false)

/-- erase_right by key of the source, the mirror of erase_left by key. -/
def erase_right_key (b : bimap) (k : Nat) : bimap × Bool :=
  let e := erase_element (rv b) (lv b) b.right_root b.left_root k
  match e.erased with
  | some i =>
    ({ recs := b.recs.filter (fun p => p.1 != i)
     , next_id := b.next_id
     , left_root := e.root2
     , right_root := e.root1
     , elements_count := b.elements_count - 1 }, true)
  | none => ({ b with left_root := e.root2, right_root := e.root1 }, false)

/-- erase_left on a cursor of the source: splay the record to the root of both
trees, detach it from each by erase_root, free it, decrement the count, and
hand back a cursor at the new Left root. -/
def erase_left_cursor (b : bimap) (nid : Nat) : bimap × Option Nat :=
  let lt := splay b.left_root nid
  let rt := splay b.right_root nid
  let lt2 := eraseRoot (lv b) lt
  let rt2 := eraseRoot (rv b) rt
  ({ recs := b.recs.filter (fun p => p.1 != nid)
   , next_id := b.next_id
   , left_root := lt2
   , right_root := rt2
   , elements_count := b.elements_count - 1 }, rootId lt2)

/-- erase_right on a cursor of the source, the mirror of erase_left on a
cursor; the returned cursor sits at the new Right root. -/
def erase_right_cursor (b : bimap) (nid : Nat) : bimap × Option Nat :=
  let lt := splay b.left_root nid
  let rt := splay b.right_root nid
  let lt2 := eraseRoot (lv b) lt
  let rt2 := eraseRoot (rv b) rt
  ({ recs := b.recs.filter (fun p => p.1 != nid)
   , next_id := b.next_id
   , left_root := lt2
   , right_root := rt2
   , elements_count := b.elements_count - 1 }, rootId rt2)

/-- lower_bound of the source at tree level: splay the probe; keep the root
when its value is not below the probe, otherwise splay the minimum of the right
subtree to the top, and fail when that subtree is empty. -/
def lower_bound_tree (v : Nat → Nat) (t : Tree) (x : Nat) : Tree × Option Nat :=
  match find v t x with
  | .nil => (.nil, none)
  | .node a b c =>
    if ¬ v b < x then (.node a b c, some b)
    else
      match c with
      | .nil => (.node a b .nil, none)
      | .node c1 c2 c3 =>
        match sinkLeftId (Tree.node c1 c2 c3) with
        | none => (.node a b (.node c1 c2 c3), none)
        | some m =>
          let t2 := splay (.node a b (.node c1 c2 c3)) m
          (t2, rootId t2)

/-- upper_bound of the source at tree level: as lower_bound, with the root
kept only when the probe is strictly below its value. -/
def upper_bound_tree (v : Nat → Nat) (t : Tree) (x : Nat) : Tree × Option Nat :=
  match find v t x with
  | .nil => (.nil, none)
  | .node a b c =>
    if x < v b then (.node a b c, some b)
    else
      match c with
      | .nil => (.node a b .nil, none)
      | .node c1 c2 c3 =>
        match sinkLeftId (Tree.node c1 c2 c3) with
        | none => (.node a b (.node c1 c2 c3), none)
        | some m =>
          let t2 := splay (.node a b (.node c1 c2 c3)) m
          (t2, rootId t2)

/-- lower_bound_left of the source. -/
def lower_bound_left (b : bimap) (k : Nat) : bimap × Option Nat :=
  let p := lower_bound_tree (lv b) b.left_root k
  ({ b with left_root := p.1 }, p.2)

/-- upper_bound_left of the source. -/
def upper_bound_left (b : bimap) (k : Nat) : bimap × Option Nat :=
  let p := upper_bound_tree (lv b) b.left_root k
  ({ b with left_root := p.1 }, p.2)

/-- lower_bound_right of the source. -/
def lower_bound_right (b : bimap) (k : Nat) : bimap × Option Nat :=
  let p := lower_bound_tree (rv b) b.right_root k
  ({ b with right_root := p.1 }, p.2)

/-- upper_bound_right of the source. -/
def upper_bound_right (b : bimap) (k : Nat) : bimap × Option Nat :=
  let p := upper_bound_tree (rv b) b.right_root k
  ({ b with right_root := p.1 }, p.2)

/-- at_element of the source, generic over the two sides: splay the key and
hand out the opposite value on an exact match; a missing key raises the
out-of-range condition, rendered as none. -/
def at_element (v1 v2 : Nat → Nat) (t1 : Tree) (k : Nat) : Tree × Option Nat :=
  match find v1 t1 k with
  | .nil => (.nil, none)
  | .node a i c => (.node a i c, if v1 i = k then some (v2 i) else none)

/-- at_left of the source. -/
def at_left (b : bimap) (k : Nat) : bimap × Option Nat :=
  let p := at_element (lv b) (rv b) b.left_root k
  ({ b with left_root := p.1 }, p.2)

/-- at_right of the source. -/
def at_right (b : bimap) (k : Nat) : bimap × Option Nat :=
  let p := at_element (rv b) (lv b) b.right_root k
  ({ b with right_root := p.1 }, p.2)

/-- at_left_or_default of the source: on a hit return the paired value; on a
miss erase the record holding the default right value, if any, through the
Right tree, insert the pair of the key and the default, and hand out the right
value of the new Right root. -/
def at_left_or_default (b : bimap) (k : Nat) : bimap × Option Nat :=
  let lt := find (lv b) b.left_root k
  match lt with
  | .node a i c =>
    if lv b i = k then ({ b with left_root := .node a i c }, some (rv b i))
    else
      let b1 := { b with left_root := Tree.node a i c }
      let b2 := (erase_right_key b1 0).1
      let b3 := (insert_by_values b2 k 0).1
      (b3, (rootId b3.right_root).map (rv b3))
  | .nil =>
    let b1 := { b with left_root := Tree.nil }
    let b2 := (erase_right_key b1 0).1
    let b3 := (insert_by_values b2 k 0).1
    (b3, (rootId b3.right_root).map (rv b3))

/-- at_right_or_default of the source, the mirror of at_left_or_default. -/
def at_right_or_default (b : bimap) (k : Nat) : bimap × Option Nat :=
  let rt := find (rv b) b.right_root k
  match rt with
  | .node a i c =>
    if rv b i = k then ({ b with right_root := .node a i c }, some (lv b i))
    else
      let b1 := { b with right_root := Tree.node a i c }
      let b2 := (erase_left_key b1 0).1
      let b3 := (insert_by_values b2 0 k).1
      (b3, (rootId b3.left_root).map (lv b3))
  | .nil =>
    let b1 := { b with right_root := Tree.nil }
    let b2 := (erase_left_key b1 0).1
    let b3 := (insert_by_values b2 0 k).1
    (b3, (rootId b3.left_root).map (lv b3))

/-- Move constructor of the source, written assignment by assignment. The body
assigns left_root from the source twice in a row and never assigns right_root,
so the new container ends with a null left root and whatever value its
right-root member happened to start with, here the parameter g; the source
object keeps its right root and only zeroes its left root and its count. -/
def move_construct (src : bimap) (g : Tree) : bimap × bimap :=
  let s1 := { src with left_root := Tree.nil }
  let d2 := s1.left_root
  let s2 := { s1 with left_root := Tree.nil }
  let dest : bimap :=
    { recs := src.recs
    , next_id := src.next_id
    , left_root := d2
    , right_root := g
    , elements_count := s2.elements_count }
  let s3 := { s2 with elements_count := 0 }
  (dest, s3)

/-- Retreat of a Left cursor sitting at the end sentinel: sink right from the
Left root, as the decrement of basic_iterator does for the Left side. -/
def end_retreat_left (b : bimap) : Option Nat :=
  sinkRightId b.left_root

/-- Retreat of a Right cursor sitting at the end sentinel. The decrement of
basic_iterator reads tree->left_root for both cursor sides and then follows
right-side right-child pointers from that node, which is the rightmost node of
the Right-tree subtree hanging at the record that roots the Left tree. -/
def end_retreat_right (b : bimap) : Option Nat :=
  match rootId b.left_root with
  | none => none
  | some i =>
    match subtreeAt b.right_root i with
    | some s => sinkRightId s
    | none => none

/-- Loop body of operator== of the source: walk the first sequence, comparing
element by element against the second. -/
def eqWalk : List Nat → List Nat → Bool
  | [], _ => true
  | _ :: _, [] => false
  | x :: xs, y :: ys => x == y && eqWalk xs ys

/-- operator== of the source: equal sizes, then the Left-order walk comparing
only left values. -/
def bimapBeq (a b : bimap) : Bool :=
  a.elements_count == b.elements_count && eqWalk (leftVals a) (leftVals b)

/-- Cursor side tag, standing for the descriptor type parameter of
basic_iterator. -/
inductive Side where
  | left : Side
  | right : Side
deriving DecidableEq, Repr

/-- basic_iterator of the source: the owning container, the node, and the
side; a null node is the end sentinel. Connecting operator== compares the
container and the node of two same-side cursors. -/
structure basicIterator where
  tree : Nat
  node : Option Nat
  side : Side
deriving DecidableEq, Repr

/-- flip of the source: the cursor of the opposite side over the same
container and the same record node. -/
def flip (it : basicIterator) : basicIterator :=
  { it with side := match it.side with | .left => .right | .right => .left }

/-- Well-formed container states: distinct records, both trees over the same
record set, both value sequences strictly increasing (hence each value unique
on its side), the count matching the tree size, and all identifiers below the
allocation counter. Every state reachable by the public operations from the
empty container satisfies this, and the claim theorems quantify over it. -/
def WF (b : bimap) : Prop :=
  (leftIds b).Nodup ∧
  (leftIds b).Perm (rightIds b) ∧
  (leftVals b).Pairwise (· < ·) ∧
  (rightVals b).Pairwise (· < ·) ∧
  b.elements_count = (leftIds b).length ∧
  ∀ i ∈ leftIds b, i < b.next_id

instance (b : bimap) : Decidable (WF b) := by
  unfold WF
  infer_instance

/-! Basic facts about in-order sequences and the splay path machinery. -/

theorem inorder_eq_nil {t : Tree} : inorder t = [] ↔ t = .nil := by
  cases t with
  | nil => simp [inorder]
  | node a b c => simp [inorder]

theorem rootId_mem {t : Tree} {j : Nat} (h : rootId t = some j) : j ∈ inorder t := by
  cases t with
  | nil => simp [rootId] at h
  | node a b c =>
    simp [rootId] at h
    simp [inorder, ← h]

theorem wrapIds_append : ∀ (c1 c2 : List Step) (l : List Nat),
    wrapIds l (c1 ++ c2) = wrapIds (wrapIds l c1) c2
  | [], _, _ => rfl
  | .fromLeft p c :: rest, c2, l => by
      simp only [List.cons_append, wrapIds]
      exact wrapIds_append rest c2 _
  | .fromRight p a :: rest, c2, l => by
      simp only [List.cons_append, wrapIds]
      exact wrapIds_append rest c2 _

theorem wrapIds_split : ∀ (ctx : List Step) (la lb : List Nat) (m : Nat),
    wrapIds (la ++ m :: lb) ctx = wrapL la ctx ++ m :: wrapR lb ctx
  | [], la, lb, m => rfl
  | .fromLeft p c :: rest, la, lb, m => by
      simp only [wrapIds, wrapL, wrapR]
      rw [List.append_assoc, List.cons_append]
      exact wrapIds_split rest la (lb ++ p :: inorder c) m
  | .fromRight p a :: rest, la, lb, m => by
      simp only [wrapIds, wrapL, wrapR]
      have h : inorder a ++ p :: (la ++ m :: lb)
          = (inorder a ++ p :: la) ++ m :: lb := by
        simp [List.append_assoc]
      rw [h]
      exact wrapIds_split rest (inorder a ++ p :: la) lb m

theorem wrapR_mem : ∀ (ctx : List Step) (r : List Nat) (j : Nat), j ∈ wrapR r ctx →
    j ∈ r ∨ ∃ p c, Step.fromLeft p c ∈ ctx ∧ (j = p ∨ j ∈ inorder c)
  | [], _, _, h => Or.inl h
  | .fromLeft p c :: rest, r, j, h => by
      simp only [wrapR] at h
      rcases wrapR_mem rest _ j h with h1 | ⟨p2, c2, hm, hj⟩
      · rcases List.mem_append.mp h1 with h2 | h2
        · exact Or.inl h2
        · rcases List.mem_cons.mp h2 with h3 | h3
          · exact Or.inr ⟨p, c, by simp, Or.inl h3⟩
          · exact Or.inr ⟨p, c, by simp, Or.inr h3⟩
      · exact Or.inr ⟨p2, c2, by simp [hm], hj⟩
  | .fromRight p a :: rest, r, j, h => by
      simp only [wrapR] at h
      rcases wrapR_mem rest _ j h with h1 | ⟨p2, c2, hm, hj⟩
      · exact Or.inl h1
      · exact Or.inr ⟨p2, c2, by simp [hm], hj⟩

theorem wrapL_mem : ∀ (ctx : List Step) (r : List Nat) (j : Nat), j ∈ wrapL r ctx →
    j ∈ r ∨ ∃ p a, Step.fromRight p a ∈ ctx ∧ (j = p ∨ j ∈ inorder a)
  | [], _, _, h => Or.inl h
  | .fromLeft p c :: rest, r, j, h => by
      simp only [wrapL] at h
      rcases wrapL_mem rest _ j h with h1 | ⟨p2, c2, hm, hj⟩
      · exact Or.inl h1
      · exact Or.inr ⟨p2, c2, by simp [hm], hj⟩
  | .fromRight p a :: rest, r, j, h => by
      simp only [wrapL] at h
      rcases wrapL_mem rest _ j h with h1 | ⟨p2, c2, hm, hj⟩
      · rcases List.mem_append.mp h1 with h2 | h2
        · exact Or.inr ⟨p, a, by simp, Or.inr h2⟩
        · rcases List.mem_cons.mp h2 with h3 | h3
          · exact Or.inr ⟨p, a, by simp, Or.inl h3⟩
          · exact Or.inl h3
      · exact Or.inr ⟨p2, c2, by simp [hm], hj⟩

theorem splayGo_root : ∀ (ctx : List Step) (a : Tree) (x : Nat) (b : Tree),
    ∃ a2 b2, splayGo (.node a x b) ctx = .node a2 x b2
  | [], a, _, b => ⟨a, b, rfl⟩
  | [s], a, x, b => by
      cases s with
      | fromLeft p c => exact ⟨a, .node b p c, rfl⟩
      | fromRight p c => exact ⟨.node c p a, b, rfl⟩
  | s1 :: s2 :: rest, a, x, b => by
      cases s1 with
      | fromLeft p cp =>
        cases s2 with
        | fromLeft g cg => exact splayGo_root rest _ x _
        | fromRight g ag => exact splayGo_root rest _ x _
      | fromRight p a2 =>
        cases s2 with
        | fromLeft g cg => exact splayGo_root rest _ x _
        | fromRight g ag => exact splayGo_root rest _ x _

theorem splayGo_inorder : ∀ (ctx : List Step) (t : Tree), t ≠ .nil →
    inorder (splayGo t ctx) = wrapIds (inorder t) ctx
  | [], _, _ => rfl
  | [s], t, ht => by
      cases t with
      | nil => exact absurd rfl ht
      | node a x b =>
        cases s with
        | fromLeft p c => simp [splayGo, zigStep, wrapIds, inorder]
        | fromRight p c => simp [splayGo, zigStep, wrapIds, inorder]
  | s1 :: s2 :: rest, t, ht => by
      cases t with
      | nil => exact absurd rfl ht
      | node a x b =>
        cases s1 with
        | fromLeft p cp =>
          cases s2 with
          | fromLeft g cg =>
            have ih := splayGo_inorder rest
              (doubleStep (.node a x b) (.fromLeft p cp) (.fromLeft g cg))
              (by simp [doubleStep])
            refine Eq.trans ih ?_
            simp [doubleStep, inorder, wrapIds, List.append_assoc]
          | fromRight g ag =>
            have ih := splayGo_inorder rest
              (doubleStep (.node a x b) (.fromLeft p cp) (.fromRight g ag))
              (by simp [doubleStep])
            refine Eq.trans ih ?_
            simp [doubleStep, inorder, wrapIds, List.append_assoc]
        | fromRight p a2 =>
          cases s2 with
          | fromLeft g cg =>
            have ih := splayGo_inorder rest
              (doubleStep (.node a x b) (.fromRight p a2) (.fromLeft g cg))
              (by simp [doubleStep])
            refine Eq.trans ih ?_
            simp [doubleStep, inorder, wrapIds, List.append_assoc]
          | fromRight g ag =>
            have ih := splayGo_inorder rest
              (doubleStep (.node a x b) (.fromRight p a2) (.fromRight g ag))
              (by simp [doubleStep])
            refine Eq.trans ih ?_
            simp [doubleStep, inorder, wrapIds, List.append_assoc]

theorem nodup_middle_split : ∀ (l1 : List Nat) {l2 l3 l4 : List Nat} {m : Nat},
    l1 ++ m :: l2 = l3 ++ m :: l4 → (l1 ++ m :: l2).Nodup → l1 = l3 ∧ l2 = l4
  | [], l2, l3, l4, m, heq, hnd => by
      cases l3 with
      | nil => simpa using heq
      | cons c l3' =>
        simp only [List.nil_append, List.cons_append, List.cons.injEq] at heq
        obtain ⟨h1, h2⟩ := heq
        subst h1
        simp only [List.nil_append, List.nodup_cons] at hnd
        exact absurd (by rw [h2]; simp : m ∈ l2) hnd.1
  | a :: l1', l2, l3, l4, m, heq, hnd => by
      cases l3 with
      | nil =>
        simp only [List.cons_append, List.nil_append, List.cons.injEq] at heq
        obtain ⟨h1, h2⟩ := heq
        subst h1
        simp only [List.cons_append, List.nodup_cons] at hnd
        exact absurd (by simp : a ∈ l1' ++ a :: l2) hnd.1
      | cons c l3' =>
        simp only [List.cons_append, List.cons.injEq] at heq
        obtain ⟨h1, h2⟩ := heq
        simp only [List.cons_append, List.nodup_cons] at hnd
        obtain ⟨h3, h4⟩ := nodup_middle_split l1' h2 hnd.2
        exact ⟨by rw [h1, h3], h4⟩

theorem pairwise_middle {v : Nat → Nat} {l1 l2 : List Nat} {m : Nat}
    (h : ((l1 ++ m :: l2).map v).Pairwise (· < ·)) :
    (∀ j ∈ l1, v j < v m) ∧ ∀ j ∈ l2, v m < v j := by
  rw [List.map_append, List.map_cons, List.pairwise_append] at h
  obtain ⟨h1, h2, h3⟩ := h
  refine ⟨fun j hj => h3 (v j) (List.mem_map_of_mem _ hj) (v m) (by simp), ?_⟩
  intro j hj
  rw [List.pairwise_cons] at h2
  exact h2.1 (v j) (List.mem_map_of_mem _ hj)

theorem nodup_of_pairwise_lt {l : List Nat} (h : l.Pairwise (· < ·)) : l.Nodup :=
  h.imp Nat.ne_of_lt

theorem map_nodup_inj {v : Nat → Nat} : ∀ {l : List Nat}, (l.map v).Nodup →
    ∀ {i j : Nat}, i ∈ l → j ∈ l → v i = v j → i = j
  | [], _, _, _, hi, _, _ => absurd hi (List.not_mem_nil _)
  | a :: l, hnd, i, j, hi, hj, hv => by
      simp only [List.map_cons, List.nodup_cons] at hnd
      rcases List.mem_cons.mp hi with rfl | hi' <;>
        rcases List.mem_cons.mp hj with rfl | hj'
      · rfl
      · exact absurd (hv ▸ List.mem_map_of_mem v hj') hnd.1
      · exact absurd (hv ▸ List.mem_map_of_mem v hi') hnd.1
      · exact map_nodup_inj hnd.2 hi' hj' hv

/-! Characterization of the descent of find and of the splayed result. -/

/-- Ordering facts recorded along the descent: the probe is below every
identifier kept on the left-turn side and above every identifier kept on the
right-turn side. -/
def stepBoundsOk (v : Nat → Nat) (x : Nat) : Step → Prop
  | .fromLeft p c => x < v p ∧ ∀ j ∈ inorder c, x < v j
  | .fromRight p a => v p < x ∧ ∀ j ∈ inorder a, v j < x

theorem descend_spec (v : Nat → Nat) (x : Nat) :
    ∀ (t : Tree), t ≠ .nil →
      ((inorder t).map v).Pairwise (· < ·) →
      ∀ (ctx : List Step),
      ∃ a b c pre,
        descend v x t ctx = (.node a b c, pre ++ ctx) ∧
        wrapIds (inorder (Tree.node a b c)) pre = inorder t ∧
        (∀ s ∈ pre, stepBoundsOk v x s) ∧
        (x < v b → a = .nil) ∧ (v b < x → c = .nil) := by
  intro t
  induction t with
  | nil => exact fun ht _ _ => absurd rfl ht
  | node a b c iha ihc =>
    intro _ hs ctx
    by_cases h1 : x < v b ∧ a ≠ Tree.nil
    · have hsa : ((inorder a).map v).Pairwise (· < ·) := by
        rw [inorder, List.map_append, List.map_cons, List.pairwise_append] at hs
        exact hs.1
      obtain ⟨a2, b2, c2, pre2, heq, hwrap, hbnd, hstop1, hstop2⟩ :=
        iha h1.2 hsa (Step.fromLeft b c :: ctx)
      refine ⟨a2, b2, c2, pre2 ++ [Step.fromLeft b c], ?_, ?_, ?_, hstop1, hstop2⟩
      · rw [descend, if_pos h1, heq]
        simp [List.append_assoc]
      · rw [wrapIds_append, hwrap]
        simp [wrapIds, inorder]
      · intro s hsmem
        rcases List.mem_append.mp hsmem with hpre | hsingle
        · exact hbnd s hpre
        · have hse : s = Step.fromLeft b c := by simpa using hsingle
          subst hse
          refine ⟨h1.1, fun j hj => ?_⟩
          have := (@pairwise_middle v (inorder a) (inorder c) b
            (by rw [← inorder]; exact hs)).2 j hj
          exact lt_trans h1.1 this
    · by_cases h2 : v b < x ∧ c ≠ Tree.nil
      · have hsc : ((inorder c).map v).Pairwise (· < ·) := by
          rw [inorder, List.map_append, List.map_cons, List.pairwise_append] at hs
          exact (List.pairwise_cons.mp hs.2.1).2
        obtain ⟨a2, b2, c2, pre2, heq, hwrap, hbnd, hstop1, hstop2⟩ :=
          ihc h2.2 hsc (Step.fromRight b a :: ctx)
        refine ⟨a2, b2, c2, pre2 ++ [Step.fromRight b a], ?_, ?_, ?_, hstop1, hstop2⟩
        · rw [descend, if_neg h1, if_pos h2, heq]
          simp [List.append_assoc]
        · rw [wrapIds_append, hwrap]
          simp [wrapIds, inorder]
        · intro s hsmem
          rcases List.mem_append.mp hsmem with hpre | hsingle
          · exact hbnd s hpre
          · have hse : s = Step.fromRight b a := by simpa using hsingle
            subst hse
            refine ⟨h2.1, fun j hj => ?_⟩
            have := (@pairwise_middle v (inorder a) (inorder c) b
              (by rw [← inorder]; exact hs)).1 j hj
            exact lt_trans this h2.1
      · refine ⟨a, b, c, [], ?_, rfl, by simp, ?_, ?_⟩
        · rw [descend, if_neg h1, if_neg h2]
          simp
        · intro hx
          by_contra ha
          exact h1 ⟨hx, ha⟩
        · intro hx
          by_contra hc
          exact h2 ⟨hx, hc⟩

theorem find_char (v : Nat → Nat) (t : Tree) (x : Nat)
    (ht : t ≠ .nil)
    (hs : ((inorder t).map v).Pairwise (· < ·))
    (hn : (inorder t).Nodup) :
    ∃ a b c, find v t x = .node a b c ∧
      inorder t = inorder a ++ b :: inorder c ∧
      (v b < x → ∀ j ∈ inorder c, x < v j) ∧
      (x < v b → ∀ j ∈ inorder a, v j < x) := by
  obtain ⟨a0, b0, c0, pre, heq, hwrap, hbnd, hstop1, hstop2⟩ :=
    descend_spec v x t ht hs []
  rw [List.append_nil] at heq
  obtain ⟨a1, c1, hgo⟩ := splayGo_root pre a0 b0 c0
  have hfind : find v t x = Tree.node a1 b0 c1 := by
    rw [find, heq]
    exact hgo
  have hio : inorder (Tree.node a1 b0 c1) = inorder t := by
    rw [← hgo, splayGo_inorder pre _ (by simp), hwrap]
  have hdec : inorder t = inorder a1 ++ b0 :: inorder c1 := by
    rw [← hio, inorder]
  have hsplit2 : wrapIds (inorder (Tree.node a0 b0 c0)) pre
      = wrapL (inorder a0) pre ++ b0 :: wrapR (inorder c0) pre := by
    rw [inorder]
    exact wrapIds_split pre _ _ b0
  have hdec2 : inorder t = wrapL (inorder a0) pre ++ b0 :: wrapR (inorder c0) pre := by
    rw [← hwrap, hsplit2]
  have hpieces : inorder a1 = wrapL (inorder a0) pre ∧
      inorder c1 = wrapR (inorder c0) pre := by
    refine nodup_middle_split (m := b0) (inorder a1) ?_ ?_
    · rw [← hdec, ← hdec2]
    · rw [← hdec]
      exact hn
  refine ⟨a1, b0, c1, hfind, hdec, ?_, ?_⟩
  · intro hlt j hj
    have hc0 : c0 = Tree.nil := hstop2 hlt
    rw [hpieces.2, hc0] at hj
    rcases wrapR_mem pre (inorder Tree.nil) j hj with hjr | ⟨p, cc, hmem, hj2⟩
    · simp [inorder] at hjr
    · have hb := hbnd _ hmem
      rcases hj2 with rfl | hj3
      · exact hb.1
      · exact hb.2 j hj3
  · intro hlt j hj
    have ha0 : a0 = Tree.nil := hstop1 hlt
    rw [hpieces.1, ha0] at hj
    rcases wrapL_mem pre (inorder Tree.nil) j hj with hjr | ⟨p, aa, hmem, hj2⟩
    · simp [inorder] at hjr
    · have hb := hbnd _ hmem
      rcases hj2 with rfl | hj3
      · exact hb.1
      · exact hb.2 j hj3

theorem find_inorder (v : Nat → Nat) (t : Tree) (x : Nat)
    (hs : ((inorder t).map v).Pairwise (· < ·))
    (hn : (inorder t).Nodup) :
    inorder (find v t x) = inorder t := by
  cases t with
  | nil => rfl
  | node a b c =>
    obtain ⟨a1, b1, c1, hfind, hdec, _, _⟩ :=
      find_char v (Tree.node a b c) x (by simp) hs hn
    rw [hfind, inorder, ← hdec]

theorem find_eq_nil_iff (v : Nat → Nat) (t : Tree) (x : Nat)
    (hs : ((inorder t).map v).Pairwise (· < ·))
    (hn : (inorder t).Nodup) :
    find v t x = .nil ↔ t = .nil := by
  constructor
  · intro h
    have := find_inorder v t x hs hn
    rw [h] at this
    exact inorder_eq_nil.mp (by rw [← this]; rfl)
  · intro h
    subst h
    rfl

theorem find_root_val (v : Nat → Nat) (t : Tree) (x : Nat)
    (hs : ((inorder t).map v).Pairwise (· < ·))
    (hn : (inorder t).Nodup)
    {a c : Tree} {m : Nat} (h : find v t x = .node a m c) :
    v m = x ↔ x ∈ (inorder t).map v := by
  have ht : t ≠ Tree.nil := by
    intro hteq
    subst hteq
    simp [find, descend, splayGo] at h
  obtain ⟨a1, b1, c1, hfind, hdec, hright, hleft⟩ := find_char v t x ht hs hn
  rw [hfind] at h
  injection h with h1 h2 h3
  subst h2
  constructor
  · intro hv
    rw [← hv]
    exact List.mem_map_of_mem v (by rw [hdec]; simp)
  · intro hx
    by_contra hne
    rcases Nat.lt_or_ge (v b1) x with hlt | hge
    · obtain ⟨j, hj, hvj⟩ := List.mem_map.mp hx
      rw [hdec] at hj
      rcases List.mem_append.mp hj with hja | hjc
      · have hlt2 := (pairwise_middle (by rw [← hdec]; exact hs)).1 j hja
        omega
      · rcases List.mem_cons.mp hjc with rfl | hjc2
        · omega
        · have := hright hlt j hjc2
          omega
    · have hlt2 : x < v b1 := by omega
      obtain ⟨j, hj, hvj⟩ := List.mem_map.mp hx
      rw [hdec] at hj
      rcases List.mem_append.mp hj with hja | hjc
      · have := hleft hlt2 j hja
        omega
      · rcases List.mem_cons.mp hjc with rfl | hjc2
        · omega
        · have hgt := (pairwise_middle (by rw [← hdec]; exact hs)).2 j hjc2
          omega

/-! Split, insert, merge, and splay-at-node characterizations. -/

theorem split_spec (v : Nat → Nat) (t : Tree) (x : Nat)
    (hs : ((inorder t).map v).Pairwise (· < ·))
    (hn : (inorder t).Nodup)
    (hx : x ∉ (inorder t).map v) :
    inorder (split v t x).1 ++ inorder (split v t x).2 = inorder t ∧
    (∀ j ∈ inorder (split v t x).1, v j < x) ∧
    (∀ j ∈ inorder (split v t x).2, x < v j) := by
  cases t with
  | nil => simp [split, find, descend, splayGo, inorder]
  | node a b c =>
    obtain ⟨a1, b1, c1, hfind, hdec, hright, hleft⟩ :=
      find_char v (Tree.node a b c) x (by simp) hs hn
    have hneq : v b1 ≠ x := fun hveq =>
      hx ((find_root_val v _ x hs hn hfind).mp hveq)
    have hmid := @pairwise_middle v (inorder a1) (inorder c1) b1
      (by rw [← hdec]; exact hs)
    by_cases hb : x < v b1
    · have hres : split v (Tree.node a b c) x = (a1, Tree.node .nil b1 c1) := by
        rw [split, hfind]
        simp [hb]
      rw [hres]
      refine ⟨?_, ?_, ?_⟩
      · simp [inorder, ← hdec]
      · intro j hj
        exact hleft hb j hj
      · intro j hj
        simp only [inorder, List.nil_append, List.mem_cons] at hj
        rcases hj with rfl | hj2
        · exact hb
        · exact lt_trans hb (hmid.2 j hj2)
    · have hblt : v b1 < x := by
        rcases Nat.lt_or_ge (v b1) x with h1 | h1
        · exact h1
        · omega
      have hres : split v (Tree.node a b c) x = (Tree.node a1 b1 .nil, c1) := by
        rw [split, hfind]
        simp [hb]
      rw [hres]
      refine ⟨?_, ?_, ?_⟩
      · simp [inorder, ← hdec]
      · intro j hj
        simp only [inorder, List.append_nil] at hj
        rcases List.mem_append.mp hj with hj2 | hj2
        · exact lt_trans (hmid.1 j hj2) hblt
        · rcases List.mem_cons.mp hj2 with rfl | hj3
          · exact hblt
          · simp at hj3
      · intro j hj
        exact hright hblt j hj

theorem insertNode_spec (v v2 : Nat → Nat) (t : Tree) (n w : Nat)
    (hs : ((inorder t).map v).Pairwise (· < ·))
    (hn : (inorder t).Nodup)
    (hw : w ∉ (inorder t).map v)
    (hfresh : n ∉ inorder t)
    (hagree : ∀ j ∈ inorder t, v2 j = v j)
    (hvn : v2 n = w) :
    (inorder (insertNode v t n w)).Perm (n :: inorder t) ∧
    ((inorder (insertNode v t n w)).map v2).Pairwise (· < ·) ∧
    (inorder (insertNode v t n w)).Nodup ∧
    rootId (insertNode v t n w) = some n := by
  obtain ⟨hconcat, hlo, hhi⟩ := split_spec v t w hs hn hw
  have hio : inorder (insertNode v t n w)
      = inorder (split v t w).1 ++ n :: inorder (split v t w).2 := by
    simp [insertNode, inorder]
  have hmemP : ∀ j ∈ inorder (split v t w).1, j ∈ inorder t := by
    intro j hj
    rw [← hconcat]
    exact List.mem_append.mpr (Or.inl hj)
  have hmemQ : ∀ j ∈ inorder (split v t w).2, j ∈ inorder t := by
    intro j hj
    rw [← hconcat]
    exact List.mem_append.mpr (Or.inr hj)
  refine ⟨?_, ?_, ?_, ?_⟩
  · rw [hio]
    refine List.Perm.trans List.perm_middle ?_
    rw [hconcat]
  · rw [hio, List.map_append, List.map_cons, hvn]
    have hP : (inorder (split v t w).1).map v2 = (inorder (split v t w).1).map v :=
      List.map_congr_left (fun j hj => hagree j (hmemP j hj))
    have hQ : (inorder (split v t w).2).map v2 = (inorder (split v t w).2).map v :=
      List.map_congr_left (fun j hj => hagree j (hmemQ j hj))
    rw [hP, hQ, List.pairwise_append]
    have hsall : (((inorder (split v t w).1 ++ inorder (split v t w).2)).map v).Pairwise (· < ·) := by
      rw [hconcat]
      exact hs
    rw [List.map_append, List.pairwise_append] at hsall
    refine ⟨hsall.1, ?_, ?_⟩
    · rw [List.pairwise_cons]
      refine ⟨?_, hsall.2.1⟩
      intro y hy
      obtain ⟨j, hj, rfl⟩ := List.mem_map.mp hy
      exact hhi j hj
    · intro y hy z hz
      obtain ⟨j, hj, rfl⟩ := List.mem_map.mp hy
      rcases List.mem_cons.mp hz with rfl | hz2
      · exact hlo j hj
      · obtain ⟨j2, hj2, rfl⟩ := List.mem_map.mp hz2
        exact lt_trans (hlo j hj) (hhi j2 hj2)
  · rw [hio, List.nodup_middle, List.nodup_cons]
    constructor
    · intro hmem
      rcases List.mem_append.mp hmem with h1 | h1
      · exact hfresh (hmemP n h1)
      · exact hfresh (hmemQ n h1)
    · rw [hconcat]
      exact hn
  · simp [insertNode, rootId]

theorem merge_spec (v : Nat → Nat) (a c : Tree)
    (hs : ((inorder a ++ inorder c).map v).Pairwise (· < ·))
    (hn : (inorder a ++ inorder c).Nodup) :
    inorder (merge v a c) = inorder a ++ inorder c ∧
    (a ≠ .nil → c ≠ .nil → rootId (merge v a c) = (inorder c).head?) := by
  cases a with
  | nil => simp [merge, inorder]
  | node al ra ar =>
    cases c with
    | nil => simp [merge, inorder]
    | node cl rc cr =>
      have hsc : ((inorder (Tree.node cl rc cr)).map v).Pairwise (· < ·) := by
        rw [List.map_append, List.pairwise_append] at hs
        exact hs.2.1
      have hnc : (inorder (Tree.node cl rc cr)).Nodup :=
        (List.nodup_append.mp hn).2.1
      have hcross : ∀ i ∈ inorder (Tree.node al ra ar),
          ∀ j ∈ inorder (Tree.node cl rc cr), v i < v j := by
        rw [List.map_append, List.pairwise_append] at hs
        intro i hi j hj
        exact hs.2.2 (v i) (List.mem_map_of_mem v hi) (v j) (List.mem_map_of_mem v hj)
      have hra : ra ∈ inorder (Tree.node al ra ar) := by simp [inorder]
      obtain ⟨a1, b1, c1, hfind, hdec, hright, hleft⟩ :=
        find_char v (Tree.node cl rc cr) (v ra) (by simp) hsc hnc
      have hb1mem : b1 ∈ inorder (Tree.node cl rc cr) := by
        rw [hdec]
        simp
      have hralt : v ra < v b1 := hcross ra hra b1 hb1mem
      have ha1nil : a1 = Tree.nil := by
        by_contra hne
        obtain ⟨j, hj⟩ := List.exists_mem_of_ne_nil (inorder a1)
          (fun hxnil => hne (inorder_eq_nil.mp hxnil))
        have hj2 : j ∈ inorder (Tree.node cl rc cr) := by
          rw [hdec]
          exact List.mem_append.mpr (Or.inl hj)
        have h1 := hleft hralt j hj
        have h2 := hcross ra hra j hj2
        omega
      have hres : merge v (Tree.node al ra ar) (Tree.node cl rc cr)
          = Tree.node (Tree.node al ra ar) b1 c1 := by
        show (match find v (Tree.node cl rc cr) (v ra) with
              | Tree.nil => Tree.nil
              | Tree.node _ c2 r2 => Tree.node (Tree.node al ra ar) c2 r2) =
            Tree.node (Tree.node al ra ar) b1 c1
        rw [hfind]
      rw [hres]
      subst ha1nil
      simp only [inorder, List.nil_append] at hdec
      refine ⟨?_, fun _ _ => ?_⟩
      · simp only [inorder]
        rw [← hdec]
      · rw [rootId]
        rw [show inorder (Tree.node cl rc cr) = b1 :: inorder c1 from hdec]
        rfl

theorem descendTo_none (target : Nat) : ∀ (t : Tree) (ctx : List Step),
    target ∉ inorder t → descendTo target t ctx = none := by
  intro t
  induction t with
  | nil => intro ctx _; rfl
  | node a b c iha ihc =>
    intro ctx hmem
    have hmb : b ≠ target := by
      intro hbt
      exact hmem (by rw [hbt] at *; simp [inorder])
    have hma : target ∉ inorder a := fun h => hmem (by simp [inorder, h])
    have hmc : target ∉ inorder c := fun h => hmem (by simp [inorder, h])
    rw [descendTo, if_neg hmb, iha _ hma, ihc _ hmc]

theorem descendTo_spec (target : Nat) : ∀ (t : Tree) (ctx : List Step),
    target ∈ inorder t →
    ∃ a c pre, descendTo target t ctx = some (.node a target c, pre ++ ctx) ∧
      wrapIds (inorder (Tree.node a target c)) pre = inorder t := by
  intro t
  induction t with
  | nil => intro ctx h; simp [inorder] at h
  | node a b c iha ihc =>
    intro ctx hmem
    by_cases hbt : b = target
    · subst hbt
      exact ⟨a, c, [], by rw [descendTo, if_pos rfl]; simp, rfl⟩
    · by_cases hma : target ∈ inorder a
      · obtain ⟨a2, c2, pre2, heq, hwrap⟩ := iha (Step.fromLeft b c :: ctx) hma
        refine ⟨a2, c2, pre2 ++ [Step.fromLeft b c], ?_, ?_⟩
        · rw [descendTo, if_neg hbt, heq]
          simp [List.append_assoc]
        · rw [wrapIds_append, hwrap]
          simp [wrapIds, inorder]
      · have hmc : target ∈ inorder c := by
          simp only [inorder, List.mem_append, List.mem_cons] at hmem
          rcases hmem with h1 | h1
          · exact absurd h1 hma
          · rcases h1 with rfl | h2
            · exact absurd rfl hbt
            · exact h2
        obtain ⟨a2, c2, pre2, heq, hwrap⟩ := ihc (Step.fromRight b a :: ctx) hmc
        refine ⟨a2, c2, pre2 ++ [Step.fromRight b a], ?_, ?_⟩
        · rw [descendTo, if_neg hbt, descendTo_none target a _ hma, heq]
          simp [List.append_assoc]
        · rw [wrapIds_append, hwrap]
          simp [wrapIds, inorder]

theorem splay_spec (t : Tree) (target : Nat) (h : target ∈ inorder t) :
    ∃ a c, splay t target = .node a target c ∧
      inorder t = inorder a ++ target :: inorder c := by
  obtain ⟨a0, c0, pre, heq, hwrap⟩ := descendTo_spec target t [] h
  rw [List.append_nil] at heq
  obtain ⟨a1, c1, hgo⟩ := splayGo_root pre a0 target c0
  refine ⟨a1, c1, ?_, ?_⟩
  · rw [splay, heq]
    exact hgo
  · have hio : inorder (Tree.node a1 target c1) = inorder t := by
      rw [← hgo, splayGo_inorder pre _ (by simp), hwrap]
    rw [← hio, inorder]

theorem sinkLeftId_eq : ∀ (t : Tree), sinkLeftId t = (inorder t).head? := by
  intro t
  induction t with
  | nil => rfl
  | node a b c iha ihc =>
    rw [sinkLeftId, iha]
    cases ha : inorder a with
    | nil => simp [inorder, ha]
    | cons y ys => simp [inorder, ha]

theorem sinkRightId_eq : ∀ (t : Tree), sinkRightId t = (inorder t).getLast? := by
  intro t
  induction t with
  | nil => rfl
  | node a b c iha ihc =>
    rw [sinkRightId, ihc, inorder, List.getLast?_append]
    cases hc : (inorder c).getLast? with
    | none =>
      have hnil : inorder c = [] := List.getLast?_eq_none_iff.mp hc
      rw [hnil]
      simp
    | some m =>
      cases hcl : inorder c with
      | nil =>
        rw [hcl] at hc
        simp at hc
      | cons y ys =>
        rw [hcl] at hc
        rw [List.getLast?_cons_cons, hc]
        simp

/-! Record-store lemmas and the characterization of insert_by_values. -/

theorem lookupRec_cons_self (rs : List (Nat × RecordV)) (n : Nat) (r : RecordV) :
    lookupRec ((n, r) :: rs) n = r := by
  simp [lookupRec]

theorem lookupRec_cons_ne (rs : List (Nat × RecordV)) (n j : Nat) (r : RecordV)
    (h : n ≠ j) : lookupRec ((n, r) :: rs) j = lookupRec rs j := by
  simp [lookupRec, h]

theorem lookupRec_filter_ne : ∀ (rs : List (Nat × RecordV)) (i j : Nat), j ≠ i →
    lookupRec (rs.filter (fun p => p.1 != i)) j = lookupRec rs j
  | [], _, _, _ => rfl
  | (n, r) :: rs, i, j, h => by
      rw [List.filter_cons]
      by_cases hni : n = i
      · subst hni
        have hnj : n ≠ j := fun hx => h hx.symm
        simp only [bne_self_eq_false, Bool.false_eq_true, if_false]
        rw [lookupRec_filter_ne rs _ _ h]
        simp [lookupRec, hnj]
      · have hb : ((n, r).1 != i) = true := by simpa using hni
        rw [hb, if_pos rfl]
        by_cases hnj : n = j
        · subst hnj
          simp [lookupRec]
        · simp only [lookupRec, hnj, if_false]
          exact lookupRec_filter_ne rs _ _ h

theorem rootValIs_find_iff (v : Nat → Nat) (t : Tree) (x : Nat)
    (hs : ((inorder t).map v).Pairwise (· < ·))
    (hn : (inorder t).Nodup) :
    rootValIs v (find v t x) x = true ↔ x ∈ (inorder t).map v := by
  cases t with
  | nil =>
    simp [find, descend, splayGo, rootValIs, inorder]
  | node a b c =>
    obtain ⟨a1, b1, c1, hfind, hdec, _, _⟩ :=
      find_char v (Tree.node a b c) x (by simp) hs hn
    rw [hfind]
    simp only [rootValIs, beq_iff_eq]
    exact find_root_val v _ x hs hn hfind

theorem insert_by_values_spec (b : bimap) (l r : Nat) (hWF : WF b)
    (b2 : bimap) (res : Option Nat)
    (heq : insert_by_values b l r = (b2, res)) :
    (res = none ↔ l ∈ leftVals b ∨ r ∈ rightVals b) ∧
    (res = none → content b2 = content b ∧ b2.elements_count = b.elements_count ∧
      b2.next_id = b.next_id ∧ b2.recs = b.recs ∧ WF b2) ∧
    (∀ n, res = some n → n = b.next_id ∧
      b2.elements_count = b.elements_count + 1 ∧
      b2.next_id = b.next_id + 1 ∧
      (content b2).Perm ((l, r) :: content b) ∧
      lv b2 n = l ∧ rv b2 n = r ∧ n ∈ leftIds b2 ∧ n ∈ rightIds b2 ∧
      rootId b2.left_root = some n ∧ rootId b2.right_root = some n ∧ WF b2) := by
  obtain ⟨hnd, hperm, hsl, hsr, hcount, hbound⟩ := hWF
  have hndr : (rightIds b).Nodup := hperm.nodup_iff.mp hnd
  have hboundr : ∀ i ∈ rightIds b, i < b.next_id := fun i hi =>
    hbound i (hperm.mem_iff.mpr hi)
  have hliff : rootValIs (lv b) (find (lv b) b.left_root l) l = true ↔ l ∈ leftVals b :=
    rootValIs_find_iff (lv b) b.left_root l hsl hnd
  have hriff : rootValIs (rv b) (find (rv b) b.right_root r) r = true ↔ r ∈ rightVals b :=
    rootValIs_find_iff (rv b) b.right_root r hsr hndr
  have hlio : inorder (find (lv b) b.left_root l) = leftIds b :=
    find_inorder (lv b) b.left_root l hsl hnd
  have hrio : inorder (find (rv b) b.right_root r) = rightIds b :=
    find_inorder (rv b) b.right_root r hsr hndr
  simp only [insert_by_values] at heq
  by_cases hcond : (rootValIs (lv b) (find (lv b) b.left_root l) l
      || rootValIs (rv b) (find (rv b) b.right_root r) r) = true
  · rw [if_pos hcond] at heq
    injection heq with h1 h2
    subst h1
    subst h2
    refine ⟨?_, ?_, ?_⟩
    · constructor
      · intro _
        rcases Bool.or_eq_true_iff.mp hcond with hA | hA
        · exact Or.inl (hliff.mp hA)
        · exact Or.inr (hriff.mp hA)
      · intro _
        rfl
    · intro _
      refine ⟨?_, rfl, rfl, rfl, ?_⟩
      · show (inorder (find (lv b) b.left_root l)).map _ = _
        rw [hlio]
        rfl
      · refine ⟨?_, ?_, ?_, ?_, ?_, ?_⟩
        · show (inorder (find (lv b) b.left_root l)).Nodup
          rw [hlio]
          exact hnd
        · show (inorder (find (lv b) b.left_root l)).Perm
            (inorder (find (rv b) b.right_root r))
          rw [hlio, hrio]
          exact hperm
        · show ((inorder (find (lv b) b.left_root l)).map _).Pairwise (· < ·)
          rw [hlio]
          exact hsl
        · show ((inorder (find (rv b) b.right_root r)).map _).Pairwise (· < ·)
          rw [hrio]
          exact hsr
        · show b.elements_count = (inorder (find (lv b) b.left_root l)).length
          rw [hlio]
          exact hcount
        · show ∀ i ∈ inorder (find (lv b) b.left_root l), i < b.next_id
          rw [hlio]
          exact hbound
    · intro n hn
      exact absurd hn (by simp)
  · rw [if_neg hcond] at heq
    injection heq with h1 h2
    subst h1
    subst h2
    have hlmem : l ∉ leftVals b := fun hm =>
      hcond (by rw [Bool.or_eq_true_iff]; exact Or.inl (hliff.mpr hm))
    have hrmem : r ∉ rightVals b := fun hm =>
      hcond (by rw [Bool.or_eq_true_iff]; exact Or.inr (hriff.mpr hm))
    refine ⟨by simp [hlmem, hrmem], by simp, ?_⟩
    intro n hn
    injection hn with hn2
    subst hn2
    set nrec : RecordV := ⟨l, r⟩ with hnrec
    set b2 : bimap :=
      { recs := (b.next_id, nrec) :: b.recs
      , next_id := b.next_id + 1
      , left_root := insertNode (lv b) (find (lv b) b.left_root l) b.next_id l
      , right_root := insertNode (rv b) (find (rv b) b.right_root r) b.next_id r
      , elements_count := b.elements_count + 1 } with hb2
    have hagl : ∀ j ∈ leftIds b, lv b2 j = lv b j := by
      intro j hj
      show (lookupRec ((b.next_id, nrec) :: b.recs) j).left_value = _
      rw [lookupRec_cons_ne _ _ _ _ (Nat.ne_of_gt (hbound j hj))]
      rfl
    have hagr : ∀ j ∈ rightIds b, rv b2 j = rv b j := by
      intro j hj
      show (lookupRec ((b.next_id, nrec) :: b.recs) j).right_value = _
      rw [lookupRec_cons_ne _ _ _ _ (Nat.ne_of_gt (hboundr j hj))]
      rfl
    have hagr2 : ∀ j ∈ leftIds b, rv b2 j = rv b j := by
      intro j hj
      show (lookupRec ((b.next_id, nrec) :: b.recs) j).right_value = _
      rw [lookupRec_cons_ne _ _ _ _ (Nat.ne_of_gt (hbound j hj))]
      rfl
    have hvl : lv b2 b.next_id = l := by
      show (lookupRec ((b.next_id, nrec) :: b.recs) b.next_id).left_value = l
      rw [lookupRec_cons_self]
    have hvr : rv b2 b.next_id = r := by
      show (lookupRec ((b.next_id, nrec) :: b.recs) b.next_id).right_value = r
      rw [lookupRec_cons_self]
    obtain ⟨hpermL, hsortL, hnodL, hrootL⟩ :=
      insertNode_spec (lv b) (lv b2) (find (lv b) b.left_root l) b.next_id l
        (by rw [hlio]; exact hsl)
        (by rw [hlio]; exact hnd)
        (by rw [hlio]; exact hlmem)
        (by rw [hlio]; exact fun hmem => absurd (hbound _ hmem) (by omega))
        (by rw [hlio]; exact hagl)
        hvl
    obtain ⟨hpermR, hsortR, hnodR, hrootR⟩ :=
      insertNode_spec (rv b) (rv b2) (find (rv b) b.right_root r) b.next_id r
        (by rw [hrio]; exact hsr)
        (by rw [hrio]; exact hndr)
        (by rw [hrio]; exact hrmem)
        (by rw [hrio]; exact fun hmem => absurd (hboundr _ hmem) (by omega))
        (by rw [hrio]; exact hagr)
        hvr
    rw [hlio] at hpermL
    rw [hrio] at hpermR
    have hlids : leftIds b2 = inorder (insertNode (lv b) (find (lv b) b.left_root l) b.next_id l) := rfl
    have hrids : rightIds b2 = inorder (insertNode (rv b) (find (rv b) b.right_root r) b.next_id r) := rfl
    have hpermL2 : (leftIds b2).Perm (b.next_id :: leftIds b) := by
      rw [hlids]; exact hpermL
    have hpermR2 : (rightIds b2).Perm (b.next_id :: rightIds b) := by
      rw [hrids]; exact hpermR
    refine ⟨rfl, rfl, rfl, ?_, hvl, hvr, ?_, ?_, hrootL, hrootR, ?_⟩
    · have hmapped := hpermL2.map (fun i => (lv b2 i, rv b2 i))
      refine hmapped.trans ?_
      rw [List.map_cons, hvl, hvr]
      have hcongr : (leftIds b).map (fun i => (lv b2 i, rv b2 i))
          = (leftIds b).map (fun i => (lv b i, rv b i)) := by
        refine List.map_congr_left ?_
        intro j hj
        rw [hagl j hj, hagr2 j hj]
      rw [hcongr]
      exact List.Perm.refl _
    · rw [hpermL2.mem_iff]
      simp
    · rw [hpermR2.mem_iff]
      simp
    · refine ⟨hnodL, ?_, hsortL, hsortR, ?_, ?_⟩
      · exact hpermL2.trans ((hperm.cons b.next_id).trans hpermR2.symm)
      · have hlen := hpermL2.length_eq
        simp only [List.length_cons] at hlen
        show b.elements_count + 1 = (leftIds b2).length
        omega
      · intro i hi
        rw [hpermL2.mem_iff] at hi
        show i < b.next_id + 1
        rcases List.mem_cons.mp hi with rfl | hi2
        · omega
        · have := hbound i hi2
          omega

/-! Erase characterizations. -/

theorem map_erase_nodup (f : Nat → Nat × Nat) (l : List Nat) (a : Nat)
    (hm : a ∈ l) (hnd : (l.map f).Nodup) :
    (l.erase a).map f = (l.map f).erase (f a) := by
  obtain ⟨s1, s2, rfl⟩ := List.append_of_mem hm
  have hndl : (s1 ++ a :: s2).Nodup := hnd.of_map
  have has1 : a ∉ s1 := by
    rw [List.nodup_middle, List.nodup_cons] at hndl
    exact fun hx => hndl.1 (List.mem_append.mpr (Or.inl hx))
  have hfa : f a ∉ s1.map f := by
    rw [List.map_append, List.map_cons, List.nodup_middle, List.nodup_cons] at hnd
    exact fun hx => hnd.1 (List.mem_append.mpr (Or.inl hx))
  rw [List.erase_append_right _ has1, List.erase_cons_head, List.map_append,
    List.map_append, List.map_cons, List.erase_append_right _ hfa,
    List.erase_cons_head]

theorem sublist_erase_middle (s1 s2 : List Nat) (a : Nat) :
    (s1 ++ s2).Sublist (s1 ++ a :: s2) :=
  List.Sublist.append_left (List.sublist_cons_self a s2) s1

theorem erase_element_spec (v1 v2 : Nat → Nat) (t1 t2 : Tree) (k : Nat)
    (hn1 : (inorder t1).Nodup)
    (hperm : (inorder t1).Perm (inorder t2))
    (hs1 : ((inorder t1).map v1).Pairwise (· < ·))
    (hs2 : ((inorder t2).map v2).Pairwise (· < ·)) :
    ( k ∉ (inorder t1).map v1 →
        (erase_element v1 v2 t1 t2 k).erased = none ∧
        inorder (erase_element v1 v2 t1 t2 k).root1 = inorder t1 ∧
        inorder (erase_element v1 v2 t1 t2 k).root2 = inorder t2 ) ∧
    ( k ∈ (inorder t1).map v1 →
        ∃ i, (erase_element v1 v2 t1 t2 k).erased = some i ∧
          i ∈ inorder t1 ∧ v1 i = k ∧
          inorder (erase_element v1 v2 t1 t2 k).root1 = (inorder t1).erase i ∧
          inorder (erase_element v1 v2 t1 t2 k).root2 = (inorder t2).erase i ) := by
  have hn2 : (inorder t2).Nodup := hperm.nodup_iff.mp hn1
  by_cases htne : t1 = Tree.nil
  · subst htne
    have ht2 : inorder t2 = [] := (hperm.symm.trans (by rfl)).eq_nil
    have hout : erase_element v1 v2 Tree.nil t2 k = ⟨.nil, .nil, none⟩ := by
      simp [erase_element, find, descend, splayGo, rootId]
    rw [hout]
    constructor
    · intro _
      simp [inorder, ht2]
    · intro hmem
      simp [inorder] at hmem
  · obtain ⟨a1, b1, c1, hfind, hdec, hright, hleft⟩ :=
      find_char v1 t1 k htne hs1 hn1
    have hb1t1 : b1 ∈ inorder t1 := by rw [hdec]; simp
    have hb1t2 : b1 ∈ inorder t2 := hperm.mem_iff.mp hb1t1
    obtain ⟨a2, c2, hsplay, hdec2⟩ := splay_spec t2 b1 hb1t2
    have hb1notA : b1 ∉ inorder a1 := by
      rw [hdec, List.nodup_middle, List.nodup_cons] at hn1
      exact fun hx => hn1.1 (List.mem_append.mpr (Or.inl hx))
    have hb1notA2 : b1 ∉ inorder a2 := by
      have hn2b := hn2
      rw [hdec2, List.nodup_middle, List.nodup_cons] at hn2b
      exact fun hx => hn2b.1 (List.mem_append.mpr (Or.inl hx))
    have hmerge1 : inorder (merge v1 a1 c1) = inorder a1 ++ inorder c1 := by
      refine (merge_spec v1 a1 c1 ?_ ?_).1
      · refine List.Pairwise.sublist ?_ hs1
        rw [hdec]
        exact (sublist_erase_middle _ _ b1).map v1
      · refine List.Nodup.sublist ?_ hn1
        rw [hdec]
        exact sublist_erase_middle _ _ b1
    have hmerge2 : inorder (merge v2 a2 c2) = inorder a2 ++ inorder c2 := by
      refine (merge_spec v2 a2 c2 ?_ ?_).1
      · refine List.Pairwise.sublist ?_ hs2
        rw [hdec2]
        exact (sublist_erase_middle _ _ b1).map v2
      · refine List.Nodup.sublist ?_ hn2
        rw [hdec2]
        exact sublist_erase_middle _ _ b1
    have herase1 : (inorder t1).erase b1 = inorder a1 ++ inorder c1 := by
      rw [hdec, List.erase_append_right _ hb1notA, List.erase_cons_head]
    have herase2 : (inorder t2).erase b1 = inorder a2 ++ inorder c2 := by
      rw [hdec2, List.erase_append_right _ hb1notA2, List.erase_cons_head]
    by_cases hv : v1 b1 = k
    · have hout : erase_element v1 v2 t1 t2 k
          = ⟨merge v1 a1 c1, eraseRoot v2 (splay t2 b1), some b1⟩ := by
        simp only [erase_element, hfind, rootId]
        rw [if_pos hv]
      constructor
      · intro hknot
        exact absurd ((find_root_val v1 t1 k hs1 hn1 hfind).mp hv) hknot
      · intro _
        refine ⟨b1, by rw [hout], hb1t1, hv, ?_, ?_⟩
        · rw [hout]
          show inorder (merge v1 a1 c1) = _
          rw [hmerge1, herase1]
        · rw [hout]
          show inorder (eraseRoot v2 (splay t2 b1)) = _
          rw [hsplay]
          show inorder (merge v2 a2 c2) = _
          rw [hmerge2, herase2]
    · have hout : erase_element v1 v2 t1 t2 k
          = ⟨Tree.node a1 b1 c1, splay t2 b1, none⟩ := by
        simp only [erase_element, hfind, rootId]
        rw [if_neg hv]
      constructor
      · intro _
        refine ⟨by rw [hout], ?_, ?_⟩
        · rw [hout]
          show inorder (Tree.node a1 b1 c1) = _
          rw [inorder, ← hdec]
        · rw [hout]
          show inorder (splay t2 b1) = _
          rw [hsplay, inorder, ← hdec2]
      · intro hk
        exact absurd ((find_root_val v1 t1 k hs1 hn1 hfind).mpr hk) hv

theorem splay_eraseRoot_spec (v : Nat → Nat) (t : Tree) (nid : Nat)
    (hn : (inorder t).Nodup)
    (hs : ((inorder t).map v).Pairwise (· < ·))
    (s1 s2 : List Nat) (hsplit : inorder t = s1 ++ nid :: s2) :
    inorder (eraseRoot v (splay t nid)) = s1 ++ s2 ∧
    (s1 ≠ [] → s2 ≠ [] → rootId (eraseRoot v (splay t nid)) = s2.head?) ∧
    (s1 = [] → s2 = [] → rootId (eraseRoot v (splay t nid)) = none) ∧
    (s1 = [] → s2 ≠ [] → ∃ j ∈ s2, rootId (eraseRoot v (splay t nid)) = some j) ∧
    (s2 = [] → s1 ≠ [] → ∃ j ∈ s1, rootId (eraseRoot v (splay t nid)) = some j) := by
  have hmem : nid ∈ inorder t := by rw [hsplit]; simp
  obtain ⟨a1, c1, hsplay, hdec⟩ := splay_spec t nid hmem
  have hpieces : inorder a1 = s1 ∧ inorder c1 = s2 := by
    refine nodup_middle_split (m := nid) (inorder a1) ?_ ?_
    · rw [← hdec, hsplit]
    · rw [← hdec]
      exact hn
  have hmerge : inorder (merge v a1 c1) = s1 ++ s2 := by
    rw [← hpieces.1, ← hpieces.2]
    refine (merge_spec v a1 c1 ?_ ?_).1
    · refine List.Pairwise.sublist ?_ hs
      rw [hdec]
      exact (sublist_erase_middle _ _ nid).map v
    · refine List.Nodup.sublist ?_ hn
      rw [hdec]
      exact sublist_erase_middle _ _ nid
  have hio : eraseRoot v (splay t nid) = merge v a1 c1 := by
    rw [hsplay]
    rfl
  rw [hio]
  refine ⟨hmerge, ?_, ?_, ?_, ?_⟩
  · intro h1 h2
    have ha1 : a1 ≠ Tree.nil := fun hx =>
      h1 (by rw [← hpieces.1, hx]; rfl)
    have hc1 : c1 ≠ Tree.nil := fun hx =>
      h2 (by rw [← hpieces.2, hx]; rfl)
    have := (merge_spec v a1 c1 ?_ ?_).2 ha1 hc1
    · rw [this, hpieces.2]
    · refine List.Pairwise.sublist ?_ hs
      rw [hdec]
      exact (sublist_erase_middle _ _ nid).map v
    · refine List.Nodup.sublist ?_ hn
      rw [hdec]
      exact sublist_erase_middle _ _ nid
  · intro h1 h2
    have ha1 : a1 = Tree.nil := inorder_eq_nil.mp (by rw [hpieces.1, h1])
    have hc1 : c1 = Tree.nil := inorder_eq_nil.mp (by rw [hpieces.2, h2])
    subst ha1
    subst hc1
    rfl
  · intro h1 h2
    have ha1 : a1 = Tree.nil := inorder_eq_nil.mp (by rw [hpieces.1, h1])
    subst ha1
    have hm : merge v Tree.nil c1 = c1 := by cases c1 <;> rfl
    rw [hm]
    cases c1 with
    | nil => exact absurd hpieces.2.symm h2
    | node x y z =>
      refine ⟨y, ?_, rfl⟩
      rw [← hpieces.2]
      simp [inorder]
  · intro h2 h1
    have hc1 : c1 = Tree.nil := inorder_eq_nil.mp (by rw [hpieces.2, h2])
    subst hc1
    cases a1 with
    | nil => exact absurd hpieces.1.symm h1
    | node x y z =>
      have hm : merge v (Tree.node x y z) Tree.nil = Tree.node x y z := rfl
      rw [hm]
      refine ⟨y, ?_, rfl⟩
      rw [← hpieces.1]
      simp [inorder]

theorem content_fst (b : bimap) : (content b).map Prod.fst = leftVals b := by
  simp [content, leftVals, List.map_map, Function.comp]

theorem content_nodup (b : bimap) (hsl : (leftVals b).Pairwise (· < ·)) :
    (content b).Nodup :=
  List.Nodup.of_map Prod.fst (by rw [content_fst]; exact nodup_of_pairwise_lt hsl)

/-- Shared bookkeeping for every operation that detaches record i from both
trees and frees it: the content shrinks by exactly the pair of i and
well-formedness is preserved. -/
theorem erase_state_facts (b : bimap) (i : Nat) (hWF : WF b) (hi : i ∈ leftIds b)
    (b2 : bimap)
    (hrecs : b2.recs = b.recs.filter (fun p => p.1 != i))
    (hnext : b2.next_id = b.next_id)
    (hcnt : b2.elements_count = b.elements_count - 1)
    (hlids : leftIds b2 = (leftIds b).erase i)
    (hrids : rightIds b2 = (rightIds b).erase i) :
    content b2 = (content b).erase (lv b i, rv b i) ∧ WF b2 := by
  obtain ⟨hnd, hperm, hsl, hsr, hcount, hbound⟩ := hWF
  have hndr : (rightIds b).Nodup := hperm.nodup_iff.mp hnd
  have hagl : ∀ j ∈ (leftIds b).erase i, lv b2 j = lv b j := by
    intro j hj
    have hjne : j ≠ i := ((hnd.mem_erase_iff).mp hj).1
    show (lookupRec b2.recs j).left_value = _
    rw [hrecs, lookupRec_filter_ne _ _ _ hjne]
    rfl
  have hagr : ∀ j ∈ (leftIds b).erase i, rv b2 j = rv b j := by
    intro j hj
    have hjne : j ≠ i := ((hnd.mem_erase_iff).mp hj).1
    show (lookupRec b2.recs j).right_value = _
    rw [hrecs, lookupRec_filter_ne _ _ _ hjne]
    rfl
  have hagr2 : ∀ j ∈ (rightIds b).erase i, rv b2 j = rv b j := by
    intro j hj
    have hjne : j ≠ i := ((hndr.mem_erase_iff).mp hj).1
    show (lookupRec b2.recs j).right_value = _
    rw [hrecs, lookupRec_filter_ne _ _ _ hjne]
    rfl
  have hcont : content b2 = (content b).erase (lv b i, rv b i) := by
    show (leftIds b2).map (fun j => (lv b2 j, rv b2 j)) = _
    rw [hlids]
    rw [List.map_congr_left (l := (leftIds b).erase i)
      (f := fun j => (lv b2 j, rv b2 j)) (g := fun j => (lv b j, rv b j))
      (fun j hj => by
        show (lv b2 j, rv b2 j) = (lv b j, rv b j)
        rw [hagl j hj, hagr j hj])]
    exact map_erase_nodup _ (leftIds b) i hi
      (by
        have : ((leftIds b).map (fun j => (lv b j, rv b j))).map Prod.fst
            = leftVals b := content_fst b
        exact List.Nodup.of_map Prod.fst
          (by rw [this]; exact nodup_of_pairwise_lt hsl))
  refine ⟨hcont, ?_, ?_, ?_, ?_, ?_, ?_⟩
  · rw [hlids]
    exact hnd.erase i
  · rw [hlids, hrids]
    exact hperm.erase i
  · show ((leftIds b2).map (lv b2)).Pairwise (· < ·)
    rw [hlids, List.map_congr_left (fun j hj => hagl j hj)]
    refine List.Pairwise.sublist ?_ hsl
    exact ((leftIds b).erase_sublist i).map (lv b)
  · show ((rightIds b2).map (rv b2)).Pairwise (· < ·)
    rw [hrids, List.map_congr_left (fun j hj => hagr2 j hj)]
    refine List.Pairwise.sublist ?_ hsr
    exact ((rightIds b).erase_sublist i).map (rv b)
  · rw [hcnt, hlids, List.length_erase_of_mem hi, hcount]
  · intro j hj
    rw [hlids] at hj
    rw [hnext]
    exact hbound j (((hnd.mem_erase_iff).mp hj).2)

theorem erase_left_key_spec (b : bimap) (k : Nat) (hWF : WF b)
    (b2 : bimap) (res : Bool) (heq : erase_left_key b k = (b2, res)) :
    ( k ∉ leftVals b →
        res = false ∧ content b2 = content b ∧
        b2.elements_count = b.elements_count ∧ b2.next_id = b.next_id ∧
        b2.recs = b.recs ∧ WF b2 ) ∧
    ( k ∈ leftVals b →
        res = true ∧
        (∃ i, i ∈ leftIds b ∧ lv b i = k ∧
          content b2 = (content b).erase (lv b i, rv b i) ∧
          leftIds b2 = (leftIds b).erase i ∧
          rightIds b2 = (rightIds b).erase i) ∧
        b2.elements_count = b.elements_count - 1 ∧ b2.next_id = b.next_id ∧
        WF b2 ) := by
  have hWF2 := hWF
  obtain ⟨hnd, hperm, hsl, hsr, hcount, hbound⟩ := hWF2
  have hndr : (rightIds b).Nodup := hperm.nodup_iff.mp hnd
  have hspec := erase_element_spec (lv b) (rv b) b.left_root b.right_root k
    hnd hperm hsl hsr
  simp only [erase_left_key] at heq
  by_cases hk : k ∈ leftVals b
  · obtain ⟨i, herased, himem, hival, hio1, hio2⟩ := hspec.2 hk
    rw [herased] at heq
    injection heq with h1 h2
    subst h2
    have hrecs : b2.recs = b.recs.filter (fun p => p.1 != i) := by rw [← h1]
    have hnext : b2.next_id = b.next_id := by rw [← h1]
    have hcnt : b2.elements_count = b.elements_count - 1 := by rw [← h1]
    have hlids2 : leftIds b2 = (leftIds b).erase i := by
      rw [show leftIds b2 = inorder b2.left_root from rfl, ← h1]
      exact hio1
    have hrids2 : rightIds b2 = (rightIds b).erase i := by
      rw [show rightIds b2 = inorder b2.right_root from rfl, ← h1]
      exact hio2
    constructor
    · intro hknot
      exact absurd hk hknot
    · intro _
      obtain ⟨hcont, hWFout⟩ := erase_state_facts b i hWF himem b2
        hrecs hnext hcnt hlids2 hrids2
      exact ⟨rfl, ⟨i, himem, hival, hcont, hlids2, hrids2⟩, hcnt, hnext, hWFout⟩
  · obtain ⟨herased, hio1, hio2⟩ := hspec.1 hk
    rw [herased] at heq
    injection heq with h1 h2
    subst h1
    subst h2
    constructor
    · intro _
      refine ⟨rfl, ?_, rfl, rfl, rfl, ?_⟩
      · show (inorder (erase_element (lv b) (rv b) b.left_root b.right_root k).root1).map _ = _
        rw [hio1]
        rfl
      · refine ⟨?_, ?_, ?_, ?_, ?_, ?_⟩
        · show (inorder (erase_element (lv b) (rv b) b.left_root b.right_root k).root1).Nodup
          rw [hio1]
          exact hnd
        · show (inorder (erase_element (lv b) (rv b) b.left_root b.right_root k).root1).Perm
            (inorder (erase_element (lv b) (rv b) b.left_root b.right_root k).root2)
          rw [hio1, hio2]
          exact hperm
        · show ((inorder (erase_element (lv b) (rv b) b.left_root b.right_root k).root1).map _).Pairwise (· < ·)
          rw [hio1]
          exact hsl
        · show ((inorder (erase_element (lv b) (rv b) b.left_root b.right_root k).root2).map _).Pairwise (· < ·)
          rw [hio2]
          exact hsr
        · show b.elements_count
            = (inorder (erase_element (lv b) (rv b) b.left_root b.right_root k).root1).length
          rw [hio1]
          exact hcount
        · show ∀ i ∈ inorder (erase_element (lv b) (rv b) b.left_root b.right_root k).root1,
            i < b.next_id
          rw [hio1]
          exact hbound
    · intro hkmem
      exact absurd hkmem hk

theorem erase_right_key_spec (b : bimap) (k : Nat) (hWF : WF b)
    (b2 : bimap) (res : Bool) (heq : erase_right_key b k = (b2, res)) :
    ( k ∉ rightVals b →
        res = false ∧ content b2 = content b ∧
        b2.elements_count = b.elements_count ∧ b2.next_id = b.next_id ∧
        b2.recs = b.recs ∧ WF b2 ) ∧
    ( k ∈ rightVals b →
        res = true ∧
        (∃ i, i ∈ rightIds b ∧ rv b i = k ∧
          content b2 = (content b).erase (lv b i, rv b i) ∧
          leftIds b2 = (leftIds b).erase i ∧
          rightIds b2 = (rightIds b).erase i) ∧
        b2.elements_count = b.elements_count - 1 ∧ b2.next_id = b.next_id ∧
        WF b2 ) := by
  have hWF2 := hWF
  obtain ⟨hnd, hperm, hsl, hsr, hcount, hbound⟩ := hWF2
  have hndr : (rightIds b).Nodup := hperm.nodup_iff.mp hnd
  have hspec := erase_element_spec (rv b) (lv b) b.right_root b.left_root k
    hndr hperm.symm hsr hsl
  simp only [erase_right_key] at heq
  by_cases hk : k ∈ rightVals b
  · obtain ⟨i, herased, himem, hival, hio1, hio2⟩ := hspec.2 hk
    rw [herased] at heq
    injection heq with h1 h2
    subst h2
    have hrecs : b2.recs = b.recs.filter (fun p => p.1 != i) := by rw [← h1]
    have hnext : b2.next_id = b.next_id := by rw [← h1]
    have hcnt : b2.elements_count = b.elements_count - 1 := by rw [← h1]
    have hlids2 : leftIds b2 = (leftIds b).erase i := by
      rw [show leftIds b2 = inorder b2.left_root from rfl, ← h1]
      exact hio2
    have hrids2 : rightIds b2 = (rightIds b).erase i := by
      rw [show rightIds b2 = inorder b2.right_root from rfl, ← h1]
      exact hio1
    constructor
    · intro hknot
      exact absurd hk hknot
    · intro _
      have himeml : i ∈ leftIds b := hperm.mem_iff.mpr himem
      obtain ⟨hcont, hWFout⟩ := erase_state_facts b i hWF himeml b2
        hrecs hnext hcnt hlids2 hrids2
      exact ⟨rfl, ⟨i, himem, hival, hcont, hlids2, hrids2⟩, hcnt, hnext, hWFout⟩
  · obtain ⟨herased, hio1, hio2⟩ := hspec.1 hk
    rw [herased] at heq
    injection heq with h1 h2
    subst h1
    subst h2
    constructor
    · intro _
      refine ⟨rfl, ?_, rfl, rfl, rfl, ?_⟩
      · show (inorder (erase_element (rv b) (lv b) b.right_root b.left_root k).root2).map _ = _
        rw [hio2]
        rfl
      · refine ⟨?_, ?_, ?_, ?_, ?_, ?_⟩
        · show (inorder (erase_element (rv b) (lv b) b.right_root b.left_root k).root2).Nodup
          rw [hio2]
          exact hnd
        · show (inorder (erase_element (rv b) (lv b) b.right_root b.left_root k).root2).Perm
            (inorder (erase_element (rv b) (lv b) b.right_root b.left_root k).root1)
          rw [hio1, hio2]
          exact hperm
        · show ((inorder (erase_element (rv b) (lv b) b.right_root b.left_root k).root2).map _).Pairwise (· < ·)
          rw [hio2]
          exact hsl
        · show ((inorder (erase_element (rv b) (lv b) b.right_root b.left_root k).root1).map _).Pairwise (· < ·)
          rw [hio1]
          exact hsr
        · show b.elements_count
            = (inorder (erase_element (rv b) (lv b) b.right_root b.left_root k).root2).length
          rw [hio2]
          exact hcount
        · show ∀ i ∈ inorder (erase_element (rv b) (lv b) b.right_root b.left_root k).root2,
            i < b.next_id
          rw [hio2]
          exact hbound
    · intro hkmem
      exact absurd hkmem hk

theorem erase_split_to_erase {l s1 s2 : List Nat} {i : Nat}
    (hsplit : l = s1 ++ i :: s2) (hnd : l.Nodup) : l.erase i = s1 ++ s2 := by
  subst hsplit
  have hnotin : i ∉ s1 := by
    rw [List.nodup_middle, List.nodup_cons] at hnd
    exact fun hx => hnd.1 (List.mem_append.mpr (Or.inl hx))
  rw [List.erase_append_right _ hnotin, List.erase_cons_head]

theorem erase_left_cursor_spec (b : bimap) (nid : Nat) (hWF : WF b)
    (s1 s2 : List Nat) (hsplit : leftIds b = s1 ++ nid :: s2)
    (b2 : bimap) (res : Option Nat) (heq : erase_left_cursor b nid = (b2, res)) :
    leftIds b2 = s1 ++ s2 ∧
    rightIds b2 = (rightIds b).erase nid ∧
    content b2 = (content b).erase (lv b nid, rv b nid) ∧
    b2.elements_count = b.elements_count - 1 ∧
    WF b2 ∧
    (s1 ≠ [] → s2 ≠ [] → res = s2.head?) ∧
    (s1 = [] → s2 = [] → res = none) ∧
    (s1 = [] → s2 ≠ [] → ∃ j ∈ s2, res = some j) ∧
    (s2 = [] → s1 ≠ [] → ∃ j ∈ s1, res = some j) := by
  have hWF2 := hWF
  obtain ⟨hnd, hperm, hsl, hsr, hcount, hbound⟩ := hWF2
  have hndr : (rightIds b).Nodup := hperm.nodup_iff.mp hnd
  have hmeml : nid ∈ leftIds b := by rw [hsplit]; simp
  have hmemr : nid ∈ rightIds b := hperm.mem_iff.mp hmeml
  obtain ⟨r1, r2, hrsplit⟩ := List.append_of_mem hmemr
  obtain ⟨hlio, hres1, hres2, hres3, hres4⟩ :=
    splay_eraseRoot_spec (lv b) b.left_root nid hnd hsl s1 s2 hsplit
  obtain ⟨hrio, _, _, _, _⟩ :=
    splay_eraseRoot_spec (rv b) b.right_root nid hndr hsr r1 r2 hrsplit
  simp only [erase_left_cursor] at heq
  injection heq with h1 h2
  have hrecs : b2.recs = b.recs.filter (fun p => p.1 != nid) := by rw [← h1]
  have hnext : b2.next_id = b.next_id := by rw [← h1]
  have hcnt : b2.elements_count = b.elements_count - 1 := by rw [← h1]
  have hlids2 : leftIds b2 = s1 ++ s2 := by
    rw [show leftIds b2 = inorder b2.left_root from rfl, ← h1]
    exact hlio
  have hrids0 : rightIds b2 = r1 ++ r2 := by
    rw [show rightIds b2 = inorder b2.right_root from rfl, ← h1]
    exact hrio
  have hrids2 : rightIds b2 = (rightIds b).erase nid := by
    rw [hrids0, erase_split_to_erase hrsplit hndr]
  have hlids3 : leftIds b2 = (leftIds b).erase nid := by
    rw [hlids2, erase_split_to_erase hsplit hnd]
  obtain ⟨hcont, hWFout⟩ := erase_state_facts b nid hWF hmeml b2
    hrecs hnext hcnt hlids3 hrids2
  have hresv : res = rootId (eraseRoot (lv b) (splay b.left_root nid)) := h2.symm
  refine ⟨hlids2, hrids2, hcont, hcnt, hWFout, ?_, ?_, ?_, ?_⟩
  · intro hA hB
    rw [hresv]
    exact hres1 hA hB
  · intro hA hB
    rw [hresv]
    exact hres2 hA hB
  · intro hA hB
    rw [hresv]
    exact hres3 hA hB
  · intro hA hB
    rw [hresv]
    exact hres4 hA hB

theorem erase_right_cursor_spec (b : bimap) (nid : Nat) (hWF : WF b)
    (r1 r2 : List Nat) (hrsplit : rightIds b = r1 ++ nid :: r2)
    (b2 : bimap) (res : Option Nat) (heq : erase_right_cursor b nid = (b2, res)) :
    rightIds b2 = r1 ++ r2 ∧
    leftIds b2 = (leftIds b).erase nid ∧
    content b2 = (content b).erase (lv b nid, rv b nid) ∧
    b2.elements_count = b.elements_count - 1 ∧
    WF b2 ∧
    (r1 ≠ [] → r2 ≠ [] → res = r2.head?) ∧
    (r1 = [] → r2 = [] → res = none) ∧
    (r1 = [] → r2 ≠ [] → ∃ j ∈ r2, res = some j) ∧
    (r2 = [] → r1 ≠ [] → ∃ j ∈ r1, res = some j) := by
  have hWF2 := hWF
  obtain ⟨hnd, hperm, hsl, hsr, hcount, hbound⟩ := hWF2
  have hndr : (rightIds b).Nodup := hperm.nodup_iff.mp hnd
  have hmemr : nid ∈ rightIds b := by rw [hrsplit]; simp
  have hmeml : nid ∈ leftIds b := hperm.mem_iff.mpr hmemr
  obtain ⟨s1, s2, hsplit⟩ := List.append_of_mem hmeml
  obtain ⟨hlio, _, _, _, _⟩ :=
    splay_eraseRoot_spec (lv b) b.left_root nid hnd hsl s1 s2 hsplit
  obtain ⟨hrio, hres1, hres2, hres3, hres4⟩ :=
    splay_eraseRoot_spec (rv b) b.right_root nid hndr hsr r1 r2 hrsplit
  simp only [erase_right_cursor] at heq
  injection heq with h1 h2
  have hrecs : b2.recs = b.recs.filter (fun p => p.1 != nid) := by rw [← h1]
  have hnext : b2.next_id = b.next_id := by rw [← h1]
  have hcnt : b2.elements_count = b.elements_count - 1 := by rw [← h1]
  have hrids2 : rightIds b2 = r1 ++ r2 := by
    rw [show rightIds b2 = inorder b2.right_root from rfl, ← h1]
    exact hrio
  have hlids0 : leftIds b2 = s1 ++ s2 := by
    rw [show leftIds b2 = inorder b2.left_root from rfl, ← h1]
    exact hlio
  have hlids3 : leftIds b2 = (leftIds b).erase nid := by
    rw [hlids0, erase_split_to_erase hsplit hnd]
  have hrids3 : rightIds b2 = (rightIds b).erase nid := by
    rw [hrids2, erase_split_to_erase hrsplit hndr]
  obtain ⟨hcont, hWFout⟩ := erase_state_facts b nid hWF hmeml b2
    hrecs hnext hcnt hlids3 hrids3
  have hresv : res = rootId (eraseRoot (rv b) (splay b.right_root nid)) := h2.symm
  refine ⟨hrids2, hlids3, hcont, hcnt, hWFout, ?_, ?_, ?_, ?_⟩
  · intro hA hB
    rw [hresv]
    exact hres1 hA hB
  · intro hA hB
    rw [hresv]
    exact hres2 hA hB
  · intro hA hB
    rw [hresv]
    exact hres3 hA hB
  · intro hA hB
    rw [hresv]
    exact hres4 hA hB

/-! Bound queries. -/

theorem find?_append_none {p : Nat → Bool} {l1 l2 : List Nat}
    (h : ∀ y ∈ l1, p y = false) :
    (l1 ++ l2).find? p = l2.find? p := by
  rw [List.find?_append]
  rw [List.find?_eq_none.mpr (fun y hy => by rw [h y hy]; simp)]
  rfl

theorem lower_bound_tree_spec (v : Nat → Nat) (t : Tree) (x : Nat)
    (hs : ((inorder t).map v).Pairwise (· < ·))
    (hn : (inorder t).Nodup) :
    Option.map v (lower_bound_tree v t x).2
      = ((inorder t).map v).find? (fun y => decide (x ≤ y)) ∧
    (∀ i, (lower_bound_tree v t x).2 = some i → i ∈ inorder t) := by
  by_cases ht : t = Tree.nil
  · subst ht
    constructor
    · simp [lower_bound_tree, find, descend, splayGo, inorder]
    · intro i hi
      simp [lower_bound_tree, find, descend, splayGo] at hi
  · obtain ⟨a1, b1, c1, hfind, hdec, hright, hleft⟩ := find_char v t x ht hs hn
    have hmid := @pairwise_middle v (inorder a1) (inorder c1) b1
      (by rw [← hdec]; exact hs)
    by_cases hb : ¬ v b1 < x
    · have hres : lower_bound_tree v t x = (Tree.node a1 b1 c1, some b1) := by
        rw [lower_bound_tree, hfind]
        simp [hb]
      have halt : ∀ j ∈ inorder a1, v j < x := by
        intro j hj
        rcases Nat.lt_or_ge x (v b1) with h1 | h1
        · exact hleft h1 j hj
        · have heq2 : v b1 = x := by omega
          have := hmid.1 j hj
          omega
      constructor
      · rw [hres, hdec, List.map_append, List.map_cons]
        rw [find?_append_none (fun y hy => by
          obtain ⟨j, hj, rfl⟩ := List.mem_map.mp hy
          simp [Nat.not_le]
          exact halt j hj)]
        rw [List.find?_cons_of_pos _ (by simp [Nat.not_lt.mp hb])]
        rfl
      · intro i hi
        rw [hres] at hi
        injection hi with hi2
        subst hi2
        rw [hdec]
        simp
    · push_neg at hb
      have halt2 : ∀ j ∈ inorder a1, v j < x := fun j hj =>
        lt_trans (hmid.1 j hj) hb
      cases hcc : c1 with
      | nil =>
        rw [hcc] at hfind hdec
        have hres : lower_bound_tree v t x = (Tree.node a1 b1 Tree.nil, none) := by
          rw [lower_bound_tree, hfind]
          simp [hb, Nat.not_lt.mpr (Nat.le_of_lt hb)]
        constructor
        · rw [hres, hdec, List.map_append, List.map_cons]
          rw [find?_append_none (fun y hy => by
            obtain ⟨j, hj, rfl⟩ := List.mem_map.mp hy
            simp [Nat.not_le]
            exact halt2 j hj)]
          rw [List.find?_cons_of_neg _ (by simp [Nat.not_le]; exact hb)]
          simp [inorder]
        · intro i hi
          rw [hres] at hi
          exact absurd hi (by simp)
      | node d1 d2 d3 =>
        rw [hcc] at hfind hdec hright
        have hne : inorder (Tree.node d1 d2 d3) ≠ [] := by simp [inorder]
        obtain ⟨m, tl, hml⟩ : ∃ m tl, inorder (Tree.node d1 d2 d3) = m :: tl := by
          cases hx : inorder (Tree.node d1 d2 d3) with
          | nil => exact absurd hx hne
          | cons y ys => exact ⟨y, ys, rfl⟩
        have hsink : sinkLeftId (Tree.node d1 d2 d3) = some m := by
          rw [sinkLeftId_eq, hml]
          rfl
        have hmmem : m ∈ inorder (Tree.node a1 b1 (Tree.node d1 d2 d3)) := by
          rw [inorder, hml]
          simp
        obtain ⟨p1, p2, hsplay2, hdecm⟩ :=
          splay_spec (Tree.node a1 b1 (Tree.node d1 d2 d3)) m hmmem
        have hres : lower_bound_tree v t x
            = (splay (Tree.node a1 b1 (Tree.node d1 d2 d3)) m,
               rootId (splay (Tree.node a1 b1 (Tree.node d1 d2 d3)) m)) := by
          rw [lower_bound_tree, hfind]
          simp only [Nat.not_lt.mpr (Nat.le_of_lt hb), if_false]
          rw [hsink]
          simp [hb]
        have hrootm : rootId (splay (Tree.node a1 b1 (Tree.node d1 d2 d3)) m)
            = some m := by
          rw [hsplay2]
          rfl
        have hmc : m ∈ inorder (Tree.node d1 d2 d3) := by
          rw [hml]
          simp
        constructor
        · rw [hres, hrootm, hdec, List.map_append, List.map_cons]
          rw [find?_append_none (fun y hy => by
            obtain ⟨j, hj, rfl⟩ := List.mem_map.mp hy
            simp [Nat.not_le]
            exact halt2 j hj)]
          rw [List.find?_cons_of_neg _ (by simp [Nat.not_le]; exact hb)]
          rw [hml, List.map_cons]
          rw [List.find?_cons_of_pos _ (by simp; exact Nat.le_of_lt (hright hb m hmc))]
          rfl
        · intro i hi
          rw [hres, hrootm] at hi
          injection hi with hi2
          subst hi2
          rw [hdec]
          exact List.mem_append.mpr (Or.inr (List.mem_cons.mpr (Or.inr hmc)))

theorem upper_bound_tree_spec (v : Nat → Nat) (t : Tree) (x : Nat)
    (hs : ((inorder t).map v).Pairwise (· < ·))
    (hn : (inorder t).Nodup) :
    Option.map v (upper_bound_tree v t x).2
      = ((inorder t).map v).find? (fun y => decide (x < y)) ∧
    (∀ i, (upper_bound_tree v t x).2 = some i → i ∈ inorder t) := by
  by_cases ht : t = Tree.nil
  · subst ht
    constructor
    · simp [upper_bound_tree, find, descend, splayGo, inorder]
    · intro i hi
      simp [upper_bound_tree, find, descend, splayGo] at hi
  · obtain ⟨a1, b1, c1, hfind, hdec, hright, hleft⟩ := find_char v t x ht hs hn
    have hmid := @pairwise_middle v (inorder a1) (inorder c1) b1
      (by rw [← hdec]; exact hs)
    by_cases hb : x < v b1
    · have hres : upper_bound_tree v t x = (Tree.node a1 b1 c1, some b1) := by
        rw [upper_bound_tree, hfind]
        simp [hb]
      have halt : ∀ j ∈ inorder a1, v j ≤ x := fun j hj =>
        Nat.le_of_lt (hleft hb j hj)
      constructor
      · rw [hres, hdec, List.map_append, List.map_cons]
        rw [find?_append_none (fun y hy => by
          obtain ⟨j, hj, rfl⟩ := List.mem_map.mp hy
          simp [Nat.not_lt]
          exact halt j hj)]
        rw [List.find?_cons_of_pos _ (by simp [hb])]
        rfl
      · intro i hi
        rw [hres] at hi
        injection hi with hi2
        subst hi2
        rw [hdec]
        simp
    · have hble : v b1 ≤ x := Nat.not_lt.mp (by omega)
      have halt2 : ∀ j ∈ inorder a1, v j ≤ x := fun j hj =>
        Nat.le_of_lt (lt_of_lt_of_le (hmid.1 j hj) hble)
      have hcgt : ∀ j ∈ inorder c1, x < v j := by
        intro j hj
        rcases Nat.lt_or_ge (v b1) x with h1 | h1
        · exact hright h1 j hj
        · have heq2 : v b1 = x := by omega
          have := hmid.2 j hj
          omega
      cases hcc : c1 with
      | nil =>
        rw [hcc] at hfind hdec
        have hres : upper_bound_tree v t x = (Tree.node a1 b1 Tree.nil, none) := by
          rw [upper_bound_tree, hfind]
          simp [hb]
        constructor
        · rw [hres, hdec, List.map_append, List.map_cons]
          rw [find?_append_none (fun y hy => by
            obtain ⟨j, hj, rfl⟩ := List.mem_map.mp hy
            simp [Nat.not_lt]
            exact halt2 j hj)]
          rw [List.find?_cons_of_neg _ (by simp [Nat.not_lt]; exact hble)]
          simp [inorder]
        · intro i hi
          rw [hres] at hi
          exact absurd hi (by simp)
      | node d1 d2 d3 =>
        rw [hcc] at hfind hdec
        rw [hcc] at hcgt
        have hne : inorder (Tree.node d1 d2 d3) ≠ [] := by simp [inorder]
        obtain ⟨m, tl, hml⟩ : ∃ m tl, inorder (Tree.node d1 d2 d3) = m :: tl := by
          cases hx : inorder (Tree.node d1 d2 d3) with
          | nil => exact absurd hx hne
          | cons y ys => exact ⟨y, ys, rfl⟩
        have hsink : sinkLeftId (Tree.node d1 d2 d3) = some m := by
          rw [sinkLeftId_eq, hml]
          rfl
        have hmmem : m ∈ inorder (Tree.node a1 b1 (Tree.node d1 d2 d3)) := by
          rw [inorder, hml]
          simp
        obtain ⟨p1, p2, hsplay2, hdecm⟩ :=
          splay_spec (Tree.node a1 b1 (Tree.node d1 d2 d3)) m hmmem
        have hres : upper_bound_tree v t x
            = (splay (Tree.node a1 b1 (Tree.node d1 d2 d3)) m,
               rootId (splay (Tree.node a1 b1 (Tree.node d1 d2 d3)) m)) := by
          rw [upper_bound_tree, hfind]
          simp only [hb, if_false]
          rw [hsink]
        have hrootm : rootId (splay (Tree.node a1 b1 (Tree.node d1 d2 d3)) m)
            = some m := by
          rw [hsplay2]
          rfl
        have hmc : m ∈ inorder (Tree.node d1 d2 d3) := by
          rw [hml]
          simp
        constructor
        · rw [hres, hrootm, hdec, List.map_append, List.map_cons]
          rw [find?_append_none (fun y hy => by
            obtain ⟨j, hj, rfl⟩ := List.mem_map.mp hy
            simp [Nat.not_lt]
            exact halt2 j hj)]
          rw [List.find?_cons_of_neg _ (by simp [Nat.not_lt]; exact hble)]
          rw [hml, List.map_cons]
          rw [List.find?_cons_of_pos _ (by simp; exact hcgt m hmc)]
          rfl
        · intro i hi
          rw [hres, hrootm] at hi
          injection hi with hi2
          subst hi2
          rw [hdec]
          exact List.mem_append.mpr (Or.inr (List.mem_cons.mpr (Or.inr hmc)))

/-! Lookup characterization and content uniqueness. -/

theorem content_mem (b : bimap) {p : Nat × Nat} :
    p ∈ content b ↔ ∃ i ∈ leftIds b, lv b i = p.1 ∧ rv b i = p.2 := by
  constructor
  · intro h
    obtain ⟨i, hi, hpi⟩ := List.mem_map.mp h
    exact ⟨i, hi, by rw [← hpi], by rw [← hpi]⟩
  · intro ⟨i, hi, h1, h2⟩
    refine List.mem_map.mpr ⟨i, hi, ?_⟩
    rw [h1, h2]

theorem content_fst_inj (b : bimap) (hsl : (leftVals b).Pairwise (· < ·))
    {l r1 r2 : Nat} (h1 : (l, r1) ∈ content b) (h2 : (l, r2) ∈ content b) :
    r1 = r2 := by
  obtain ⟨i1, hi1, hl1, hr1⟩ := (content_mem b).mp h1
  obtain ⟨i2, hi2, hl2, hr2⟩ := (content_mem b).mp h2
  simp only [Prod.fst, Prod.snd] at hl1 hr1 hl2 hr2
  have : i1 = i2 :=
    map_nodup_inj (nodup_of_pairwise_lt hsl) hi1 hi2 (by rw [hl1, hl2])
  rw [← hr1, ← hr2, this]

theorem content_snd_inj (b : bimap) (hWF : WF b)
    {r l1 l2 : Nat} (h1 : (l1, r) ∈ content b) (h2 : (l2, r) ∈ content b) :
    l1 = l2 := by
  obtain ⟨hnd, hperm, hsl, hsr, hcount, hbound⟩ := hWF
  have hrvnod : ((leftIds b).map (rv b)).Nodup := by
    have hp : ((leftIds b).map (rv b)).Perm (rightVals b) := hperm.map (rv b)
    exact hp.nodup_iff.mpr (nodup_of_pairwise_lt hsr)
  obtain ⟨i1, hi1, hl1, hr1⟩ := (content_mem b).mp h1
  obtain ⟨i2, hi2, hl2, hr2⟩ := (content_mem b).mp h2
  simp only [Prod.fst, Prod.snd] at hl1 hr1 hl2 hr2
  have : i1 = i2 := map_nodup_inj hrvnod hi1 hi2 (by rw [hr1, hr2])
  rw [← hl1, ← hl2, this]

theorem at_element_spec (v1 v2 : Nat → Nat) (t1 : Tree) (k : Nat)
    (hs : ((inorder t1).map v1).Pairwise (· < ·))
    (hn : (inorder t1).Nodup) :
    inorder (at_element v1 v2 t1 k).1 = inorder t1 ∧
    ((at_element v1 v2 t1 k).2 = none ↔ k ∉ (inorder t1).map v1) ∧
    (∀ i ∈ inorder t1, v1 i = k → (at_element v1 v2 t1 k).2 = some (v2 i)) := by
  by_cases ht : t1 = Tree.nil
  · subst ht
    refine ⟨rfl, by simp [at_element, find, descend, splayGo, inorder], ?_⟩
    intro i hi
    simp [inorder] at hi
  · obtain ⟨a1, b1, c1, hfind, hdec, hright, hleft⟩ := find_char v1 t1 k ht hs hn
    have hiff := find_root_val v1 t1 k hs hn hfind
    by_cases hv : v1 b1 = k
    · have hres : at_element v1 v2 t1 k = (Tree.node a1 b1 c1, some (v2 b1)) := by
        rw [at_element, hfind]
        simp [hv]
      refine ⟨by rw [hres]; rw [show (Tree.node a1 b1 c1, some (v2 b1)).1
          = Tree.node a1 b1 c1 from rfl, inorder, ← hdec], ?_, ?_⟩
      · rw [hres]
        constructor
        · intro hx
          simp at hx
        · intro hx
          exact absurd (hiff.mp hv) hx
      · intro i hi hvi
        rw [hres]
        have hmapnod : ((inorder t1).map v1).Nodup := nodup_of_pairwise_lt hs
        have hib : i = b1 := by
          refine map_nodup_inj hmapnod hi ?_ (by rw [hvi, hv])
          rw [hdec]
          simp
        rw [hib]
    · have hres : at_element v1 v2 t1 k = (Tree.node a1 b1 c1, none) := by
        rw [at_element, hfind]
        simp [hv]
      refine ⟨by rw [hres]; rw [show (Tree.node a1 b1 c1, (none : Option Nat)).1
          = Tree.node a1 b1 c1 from rfl, inorder, ← hdec], ?_, ?_⟩
      · rw [hres]
        constructor
        · intro _ hx
          exact hv (hiff.mpr hx)
        · intro _
          rfl
      · intro i hi hvi
        exfalso
        exact hv (hiff.mpr (by rw [← hvi]; exact List.mem_map_of_mem v1 hi))

theorem eqWalk_iff : ∀ (xs ys : List Nat), xs.length = ys.length →
    (eqWalk xs ys = true ↔ xs = ys)
  | [], [], _ => by simp [eqWalk]
  | [], y :: ys, h => by simp at h
  | x :: xs, [], h => by simp at h
  | x :: xs, y :: ys, h => by
      simp only [eqWalk, Bool.and_eq_true, beq_iff_eq]
      rw [eqWalk_iff xs ys (by simpa using h)]
      simp [List.cons.injEq]

/-! Default-valued lookup: the erase-then-insert path. -/

theorem erase_eq_filter_snd {cs : List (Nat × Nat)} {l0 k : Nat}
    (hn : (cs.map Prod.snd).Nodup) (hm : (l0, k) ∈ cs) :
    cs.erase (l0, k) = cs.filter (fun p => p.2 != k) := by
  obtain ⟨c1, c2, rfl⟩ := List.append_of_mem hm
  have hkc1 : ∀ p ∈ c1, p.2 ≠ k := by
    intro p hp hpk
    rw [List.map_append, List.map_cons, List.nodup_middle, List.nodup_cons] at hn
    exact hn.1 (List.mem_append.mpr (Or.inl (List.mem_map.mpr ⟨p, hp, hpk⟩)))
  have hkc2 : ∀ p ∈ c2, p.2 ≠ k := by
    intro p hp hpk
    rw [List.map_append, List.map_cons, List.nodup_middle, List.nodup_cons] at hn
    exact hn.1 (List.mem_append.mpr (Or.inr (List.mem_map.mpr ⟨p, hp, hpk⟩)))
  have hnotc1 : (l0, k) ∉ c1 := fun hx => hkc1 _ hx rfl
  rw [List.erase_append_right _ hnotc1, List.erase_cons_head]
  rw [List.filter_append, List.filter_cons]
  have hck : (((l0, k) : Nat × Nat).2 != k) = false := by simp
  rw [hck]
  simp only [Bool.false_eq_true, if_false]
  rw [List.filter_eq_self.mpr (fun p hp => by simpa using hkc1 p hp),
    List.filter_eq_self.mpr (fun p hp => by simpa using hkc2 p hp)]

theorem erase_eq_filter_fst {cs : List (Nat × Nat)} {r0 k : Nat}
    (hn : (cs.map Prod.fst).Nodup) (hm : (k, r0) ∈ cs) :
    cs.erase (k, r0) = cs.filter (fun p => p.1 != k) := by
  obtain ⟨c1, c2, rfl⟩ := List.append_of_mem hm
  have hkc1 : ∀ p ∈ c1, p.1 ≠ k := by
    intro p hp hpk
    rw [List.map_append, List.map_cons, List.nodup_middle, List.nodup_cons] at hn
    exact hn.1 (List.mem_append.mpr (Or.inl (List.mem_map.mpr ⟨p, hp, hpk⟩)))
  have hkc2 : ∀ p ∈ c2, p.1 ≠ k := by
    intro p hp hpk
    rw [List.map_append, List.map_cons, List.nodup_middle, List.nodup_cons] at hn
    exact hn.1 (List.mem_append.mpr (Or.inr (List.mem_map.mpr ⟨p, hp, hpk⟩)))
  have hnotc1 : (k, r0) ∉ c1 := fun hx => hkc1 _ hx rfl
  rw [List.erase_append_right _ hnotc1, List.erase_cons_head]
  rw [List.filter_append, List.filter_cons]
  have hck : (((k, r0) : Nat × Nat).1 != k) = false := by simp
  rw [hck]
  simp only [Bool.false_eq_true, if_false]
  rw [List.filter_eq_self.mpr (fun p hp => by simpa using hkc1 p hp),
    List.filter_eq_self.mpr (fun p hp => by simpa using hkc2 p hp)]

theorem content_snd_perm (b : bimap) (hWF : WF b) :
    ((content b).map Prod.snd).Perm (rightVals b) := by
  obtain ⟨hnd, hperm, hsl, hsr, hcount, hbound⟩ := hWF
  have h1 : (content b).map Prod.snd = (leftIds b).map (rv b) := by
    simp [content, List.map_map, Function.comp]
  rw [h1]
  exact hperm.map (rv b)

/-- Common tail of the default-valued lookups on a miss: erase the record
holding the default opposite value through the opposite tree, insert the pair
of the key and the default, and read the default back from the new root. -/
theorem at_left_or_default_miss (b1 : bimap) (k : Nat) (hWF1 : WF b1)
    (hk : k ∉ leftVals b1) :
    (rootId (insert_by_values ((erase_right_key b1 0).1) k 0).1.right_root).map
      (rv (insert_by_values ((erase_right_key b1 0).1) k 0).1) = some 0 ∧
    (content (insert_by_values ((erase_right_key b1 0).1) k 0).1).Perm
      ((k, 0) :: (content b1).filter (fun p => p.2 != 0)) := by
  have hWF1b := hWF1
  obtain ⟨hnd1, hperm1, hsl1, hsr1, hcount1, hbound1⟩ := hWF1b
  have hespec := erase_right_key_spec b1 0 hWF1 (erase_right_key b1 0).1
    (erase_right_key b1 0).2 rfl
  have hb2 : content (erase_right_key b1 0).1
        = (content b1).filter (fun p => p.2 != 0) ∧
      WF (erase_right_key b1 0).1 := by
    by_cases h0 : 0 ∈ rightVals b1
    · obtain ⟨_, ⟨i, hiR, hir, hcont, _, _⟩, _, _, hWF2⟩ := hespec.2 h0
      refine ⟨?_, hWF2⟩
      rw [hcont, hir]
      refine erase_eq_filter_snd ?_ ?_
      · refine (content_snd_perm b1 hWF1).nodup_iff.mpr ?_
        exact nodup_of_pairwise_lt hsr1
      · refine (content_mem b1).mpr ⟨i, hperm1.mem_iff.mpr hiR, rfl, hir⟩
    · obtain ⟨_, hcont, _, _, _, hWF2⟩ := hespec.1 h0
      refine ⟨?_, hWF2⟩
      rw [hcont]
      rw [List.filter_eq_self.mpr ?_]
      intro p hp
      simp only [bne_iff_ne, ne_eq]
      intro hp0
      refine h0 ?_
      refine ((content_snd_perm b1 hWF1).mem_iff).mp ?_
      rw [← hp0]
      exact List.mem_map_of_mem Prod.snd hp
  obtain ⟨hcont2, hWF2⟩ := hb2
  have hknot2 : k ∉ leftVals (erase_right_key b1 0).1 := by
    intro hkm
    have h1 : k ∈ ((content (erase_right_key b1 0).1).map Prod.fst) := by
      rw [content_fst]
      exact hkm
    rw [hcont2] at h1
    obtain ⟨p, hp, hpk⟩ := List.mem_map.mp h1
    have hpc : p ∈ content b1 := List.mem_of_mem_filter hp
    refine hk ?_
    rw [← content_fst b1]
    rw [← hpk]
    exact List.mem_map_of_mem Prod.fst hpc
  have h0not2 : (0 : Nat) ∉ rightVals (erase_right_key b1 0).1 := by
    intro h0m
    have h1 : (0 : Nat) ∈ ((content (erase_right_key b1 0).1).map Prod.snd) :=
      ((content_snd_perm _ hWF2).mem_iff).mpr h0m
    rw [hcont2] at h1
    obtain ⟨p, hp, hpk⟩ := List.mem_map.mp h1
    have := List.of_mem_filter hp
    simp only [bne_iff_ne, ne_eq] at this
    exact this hpk
  have hispec := insert_by_values_spec (erase_right_key b1 0).1 k 0 hWF2
    (insert_by_values ((erase_right_key b1 0).1) k 0).1
    (insert_by_values ((erase_right_key b1 0).1) k 0).2 rfl
  have hsucc : (insert_by_values ((erase_right_key b1 0).1) k 0).2 ≠ none := by
    intro hnone
    rcases hispec.1.mp hnone with hA | hA
    · exact hknot2 hA
    · exact h0not2 hA
  cases hres : (insert_by_values ((erase_right_key b1 0).1) k 0).2 with
  | none => exact absurd hres hsucc
  | some n =>
    obtain ⟨_, _, _, hcont3, _, hrvn, _, _, _, hrootR, _⟩ := hispec.2.2 n hres
    constructor
    · rw [hrootR, Option.map_some', hrvn]
    · refine hcont3.trans ?_
      rw [hcont2]

/-- Mirror of the miss path for at_right_or_default. -/
theorem at_right_or_default_miss (b1 : bimap) (k : Nat) (hWF1 : WF b1)
    (hk : k ∉ rightVals b1) :
    (rootId (insert_by_values ((erase_left_key b1 0).1) 0 k).1.left_root).map
      (lv (insert_by_values ((erase_left_key b1 0).1) 0 k).1) = some 0 ∧
    (content (insert_by_values ((erase_left_key b1 0).1) 0 k).1).Perm
      ((0, k) :: (content b1).filter (fun p => p.1 != 0)) := by
  have hWF1b := hWF1
  obtain ⟨hnd1, hperm1, hsl1, hsr1, hcount1, hbound1⟩ := hWF1b
  have hespec := erase_left_key_spec b1 0 hWF1 (erase_left_key b1 0).1
    (erase_left_key b1 0).2 rfl
  have hb2 : content (erase_left_key b1 0).1
        = (content b1).filter (fun p => p.1 != 0) ∧
      WF (erase_left_key b1 0).1 := by
    by_cases h0 : 0 ∈ leftVals b1
    · obtain ⟨_, ⟨i, hiL, hil, hcont, _, _⟩, _, _, hWF2⟩ := hespec.2 h0
      refine ⟨?_, hWF2⟩
      rw [hcont, hil]
      refine erase_eq_filter_fst ?_ ?_
      · rw [content_fst]
        exact nodup_of_pairwise_lt hsl1
      · exact (content_mem b1).mpr ⟨i, hiL, hil, rfl⟩
    · obtain ⟨_, hcont, _, _, _, hWF2⟩ := hespec.1 h0
      refine ⟨?_, hWF2⟩
      rw [hcont]
      rw [List.filter_eq_self.mpr ?_]
      intro p hp
      simp only [bne_iff_ne, ne_eq]
      intro hp0
      refine h0 ?_
      rw [← content_fst b1]
      rw [← hp0]
      exact List.mem_map_of_mem Prod.fst hp
  obtain ⟨hcont2, hWF2⟩ := hb2
  have hknot2 : k ∉ rightVals (erase_left_key b1 0).1 := by
    intro hkm
    have h1 : k ∈ ((content (erase_left_key b1 0).1).map Prod.snd) :=
      ((content_snd_perm _ hWF2).mem_iff).mpr hkm
    rw [hcont2] at h1
    obtain ⟨p, hp, hpk⟩ := List.mem_map.mp h1
    have hpc : p ∈ content b1 := List.mem_of_mem_filter hp
    refine hk ?_
    refine ((content_snd_perm b1 hWF1).mem_iff).mp ?_
    rw [← hpk]
    exact List.mem_map_of_mem Prod.snd hpc
  have h0not2 : (0 : Nat) ∉ leftVals (erase_left_key b1 0).1 := by
    intro h0m
    have h1 : (0 : Nat) ∈ ((content (erase_left_key b1 0).1).map Prod.fst) := by
      rw [content_fst]
      exact h0m
    rw [hcont2] at h1
    obtain ⟨p, hp, hpk⟩ := List.mem_map.mp h1
    have := List.of_mem_filter hp
    simp only [bne_iff_ne, ne_eq] at this
    exact this hpk
  have hispec := insert_by_values_spec (erase_left_key b1 0).1 0 k hWF2
    (insert_by_values ((erase_left_key b1 0).1) 0 k).1
    (insert_by_values ((erase_left_key b1 0).1) 0 k).2 rfl
  have hsucc : (insert_by_values ((erase_left_key b1 0).1) 0 k).2 ≠ none := by
    intro hnone
    rcases hispec.1.mp hnone with hA | hA
    · exact h0not2 hA
    · exact hknot2 hA
  cases hres : (insert_by_values ((erase_left_key b1 0).1) 0 k).2 with
  | none => exact absurd hres hsucc
  | some n =>
    obtain ⟨_, _, _, hcont3, hlvn, _, _, _, hrootL, _, _⟩ := hispec.2.2 n hres
    constructor
    · rw [hrootL, Option.map_some', hlvn]
    · refine hcont3.trans ?_
      rw [hcont2]

theorem WF_roots (b : bimap) (hWF : WF b) (t1 t2 : Tree)
    (h1 : inorder t1 = leftIds b) (h2 : inorder t2 = rightIds b) :
    WF { b with left_root := t1, right_root := t2 } ∧
    content { b with left_root := t1, right_root := t2 } = content b ∧
    leftVals { b with left_root := t1, right_root := t2 } = leftVals b ∧
    rightVals { b with left_root := t1, right_root := t2 } = rightVals b := by
  obtain ⟨hnd, hperm, hsl, hsr, hcount, hbound⟩ := hWF
  refine ⟨⟨?_, ?_, ?_, ?_, ?_, ?_⟩, ?_, ?_, ?_⟩
  · show (inorder t1).Nodup
    rw [h1]
    exact hnd
  · show (inorder t1).Perm (inorder t2)
    rw [h1, h2]
    exact hperm
  · show ((inorder t1).map _).Pairwise (· < ·)
    rw [h1]
    exact hsl
  · show ((inorder t2).map _).Pairwise (· < ·)
    rw [h2]
    exact hsr
  · show b.elements_count = (inorder t1).length
    rw [h1]
    exact hcount
  · show ∀ i ∈ inorder t1, i < b.next_id
    rw [h1]
    exact hbound
  · show (inorder t1).map _ = _
    rw [h1]
    rfl
  · show (inorder t1).map _ = _
    rw [h1]
    rfl
  · show (inorder t2).map _ = _
    rw [h2]
    rfl

/-! Claim theorems. -/

/-- Two-pair example container used by the witnesses. -/
def exW : bimap :=
  (insert_by_values ((insert_by_values emptyBimap 1 10).1) 2 20).1

/-- Claim C3: insert fails, returning no cursor, exactly when the left value is
already a Left key or the right value is already a Right key; on failure
nothing is allocated (allocation counter unchanged) and the size and every
mapping are unchanged; on success the size grows by one, the allocation counter
advances by one, the content gains exactly the new pair, and the returned
cursor sits on a record holding the new pair that is present in both trees. -/
theorem c3_insert_conflict_spec (b : bimap) (l r : Nat) (hWF : WF b) :
    ((insert_by_values b l r).2 = none ↔ l ∈ leftVals b ∨ r ∈ rightVals b) ∧
    ((insert_by_values b l r).2 = none →
      content (insert_by_values b l r).1 = content b ∧
      (insert_by_values b l r).1.elements_count = b.elements_count ∧
      (insert_by_values b l r).1.next_id = b.next_id) ∧
    (∀ n, (insert_by_values b l r).2 = some n →
      (insert_by_values b l r).1.elements_count = b.elements_count + 1 ∧
      (insert_by_values b l r).1.next_id = b.next_id + 1 ∧
      (content (insert_by_values b l r).1).Perm ((l, r) :: content b) ∧
      lv (insert_by_values b l r).1 n = l ∧
      rv (insert_by_values b l r).1 n = r ∧
      n ∈ leftIds (insert_by_values b l r).1 ∧
      n ∈ rightIds (insert_by_values b l r).1) := by
  have h := insert_by_values_spec b l r hWF (insert_by_values b l r).1
    (insert_by_values b l r).2 rfl
  refine ⟨h.1, ?_, ?_⟩
  · intro hnone
    obtain ⟨h1, h2, h3, _, _⟩ := h.2.1 hnone
    exact ⟨h1, h2, h3⟩
  · intro n hn
    obtain ⟨_, h2, h3, h4, h5, h6, h7, h8, _, _, _⟩ := h.2.2 n hn
    exact ⟨h2, h3, h4, h5, h6, h7, h8⟩

theorem c3_insert_witness :
    ((insert_by_values exW 1 99).2 = none ↔
      1 ∈ leftVals exW ∨ 99 ∈ rightVals exW) :=
  (c3_insert_conflict_spec exW 1 99 (by decide)).1

/-- Claim C6: at_left signals the key-not-found condition exactly when the key
is absent from the Left side, and at_right mirrors it; for every live pair the
lookups return the paired opposite values. -/
theorem c6_at_spec (b : bimap) (hWF : WF b) :
    (∀ k, ((at_left b k).2 = none ↔ k ∉ leftVals b)) ∧
    (∀ k, ((at_right b k).2 = none ↔ k ∉ rightVals b)) ∧
    (∀ l r, (l, r) ∈ content b →
      (at_left b l).2 = some r ∧ (at_right b r).2 = some l) := by
  have hWFb := hWF
  obtain ⟨hnd, hperm, hsl, hsr, hcount, hbound⟩ := hWFb
  have hndr := hperm.nodup_iff.mp hnd
  refine ⟨?_, ?_, ?_⟩
  · intro k
    exact (at_element_spec (lv b) (rv b) b.left_root k hsl hnd).2.1
  · intro k
    exact (at_element_spec (rv b) (lv b) b.right_root k hsr hndr).2.1
  · intro l r hlr
    obtain ⟨i, hi, hil, hir⟩ := (content_mem b).mp hlr
    simp only [Prod.fst, Prod.snd] at hil hir
    constructor
    · have hx := (at_element_spec (lv b) (rv b) b.left_root l hsl hnd).2.2 i hi hil
      show (at_element (lv b) (rv b) b.left_root l).2 = some r
      rw [hx, hir]
    · have hiR : i ∈ inorder b.right_root := hperm.mem_iff.mp hi
      have hx := (at_element_spec (rv b) (lv b) b.right_root r hsr hndr).2.2 i hiR hir
      show (at_element (rv b) (lv b) b.right_root r).2 = some l
      rw [hx, hil]

theorem c6_at_witness :
    ((at_left exW 1).2 = none ↔ 1 ∉ leftVals exW) :=
  (c6_at_spec exW (by decide)).1 1

/-- Claim C7: in the sorted value sequence of a side, the lower-bound query
answers the first value not below the probe and the upper-bound query the
first value strictly above it, as the first match of the corresponding
predicate, with the end sentinel when no such element exists; all four
side-direction combinations are covered and the returned cursor always sits on
a record of the container. -/
theorem c7_bounds_spec (b : bimap) (hWF : WF b) (k : Nat) :
    (Option.map (lv b) (lower_bound_left b k).2
        = (leftVals b).find? (fun y => decide (k ≤ y)) ∧
      ∀ i, (lower_bound_left b k).2 = some i → i ∈ leftIds b) ∧
    (Option.map (lv b) (upper_bound_left b k).2
        = (leftVals b).find? (fun y => decide (k < y)) ∧
      ∀ i, (upper_bound_left b k).2 = some i → i ∈ leftIds b) ∧
    (Option.map (rv b) (lower_bound_right b k).2
        = (rightVals b).find? (fun y => decide (k ≤ y)) ∧
      ∀ i, (lower_bound_right b k).2 = some i → i ∈ rightIds b) ∧
    (Option.map (rv b) (upper_bound_right b k).2
        = (rightVals b).find? (fun y => decide (k < y)) ∧
      ∀ i, (upper_bound_right b k).2 = some i → i ∈ rightIds b) := by
  obtain ⟨hnd, hperm, hsl, hsr, hcount, hbound⟩ := hWF
  have hndr := hperm.nodup_iff.mp hnd
  exact ⟨lower_bound_tree_spec (lv b) b.left_root k hsl hnd,
    upper_bound_tree_spec (lv b) b.left_root k hsl hnd,
    lower_bound_tree_spec (rv b) b.right_root k hsr hndr,
    upper_bound_tree_spec (rv b) b.right_root k hsr hndr⟩

theorem c7_bounds_witness :
    Option.map (lv exW) (lower_bound_left exW 2).2
      = (leftVals exW).find? (fun y => decide (2 ≤ y)) :=
  ((c7_bounds_spec exW (by decide) 2).1).1

/-- Claim C9: two containers compare equal exactly when their sizes agree and
their Left-ordered left-value sequences agree; right values never enter the
comparison, so containers pairing the same Left keys with different Right
values compare equal. -/
theorem c9_equality_spec (a b : bimap) (ha : WF a) (hb : WF b) :
    bimapBeq a b = true ↔
      (a.elements_count = b.elements_count ∧ leftVals a = leftVals b) := by
  obtain ⟨hnda, hperma, hsla, hsra, hcounta, hbounda⟩ := ha
  obtain ⟨hndb, hpermb, hslb, hsrb, hcountb, hboundb⟩ := hb
  rw [bimapBeq, Bool.and_eq_true, beq_iff_eq]
  constructor
  · intro ⟨hc, hw⟩
    refine ⟨hc, ?_⟩
    refine (eqWalk_iff _ _ ?_).mp hw
    show (leftVals a).length = (leftVals b).length
    rw [show (leftVals a).length = (leftIds a).length from List.length_map _ _,
      show (leftVals b).length = (leftIds b).length from List.length_map _ _,
      ← hcounta, ← hcountb, hc]
  · intro ⟨hc, hv⟩
    refine ⟨hc, ?_⟩
    refine (eqWalk_iff _ _ ?_).mpr hv
    rw [hv]

theorem c9_equality_witness :
    bimapBeq exW exW = true ↔
      (exW.elements_count = exW.elements_count ∧ leftVals exW = leftVals exW) :=
  c9_equality_spec exW exW (by decide) (by decide)

/-- Claim C10: converting a cursor to the opposite side and back yields the
original cursor, over the same container and the same record node; this holds
for end cursors as well since the node is untouched. -/
theorem c10_flip_involution (it : basicIterator) : flip (flip it) = it := by
  cases it with
  | mk t n s => cases s <;> rfl

/-- Claim C8: when the key is present, the default-valued lookups return the
existing opposite value and leave the content untouched; when the key is
absent, they first erase through the opposite tree any live pair whose
opposite value equals the default-constructed value 0, deleting such an
unrelated pair if one exists, then insert the pair of the key and the default
and return the default. -/
theorem c8_at_or_default_spec (b : bimap) (hWF : WF b) :
    (∀ k r, (k, r) ∈ content b →
      (at_left_or_default b k).2 = some r ∧
      content (at_left_or_default b k).1 = content b) ∧
    (∀ k, k ∉ leftVals b →
      (at_left_or_default b k).2 = some 0 ∧
      (content (at_left_or_default b k).1).Perm
        ((k, 0) :: (content b).filter (fun p => p.2 != 0))) ∧
    (∀ k l, (l, k) ∈ content b →
      (at_right_or_default b k).2 = some l ∧
      content (at_right_or_default b k).1 = content b) ∧
    (∀ k, k ∉ rightVals b →
      (at_right_or_default b k).2 = some 0 ∧
      (content (at_right_or_default b k).1).Perm
        ((0, k) :: (content b).filter (fun p => p.1 != 0))) := by
  have hWFb := hWF
  obtain ⟨hnd, hperm, hsl, hsr, hcount, hbound⟩ := hWFb
  have hndr := hperm.nodup_iff.mp hnd
  refine ⟨?_, ?_, ?_, ?_⟩
  · intro k r hkr
    obtain ⟨i, hi, hil, hir⟩ := (content_mem b).mp hkr
    simp only [Prod.fst, Prod.snd] at hil hir
    have hkmem : k ∈ leftVals b := by
      rw [← hil]
      exact List.mem_map_of_mem (lv b) hi
    have htne : b.left_root ≠ Tree.nil := by
      intro hx
      have : leftIds b = [] := by
        show inorder b.left_root = []
        rw [hx]
        rfl
      rw [this] at hi
      simp at hi
    obtain ⟨a1, b1, c1, hfind, hdec, _, _⟩ := find_char (lv b) b.left_root k htne hsl hnd
    have hv : lv b b1 = k := (find_root_val (lv b) b.left_root k hsl hnd hfind).mpr hkmem
    have hres : at_left_or_default b k
        = ({ b with left_root := Tree.node a1 b1 c1 }, some (rv b b1)) := by
      rw [at_left_or_default, hfind]
      simp [hv]
    have hb1mem : b1 ∈ leftIds b := by
      rw [show leftIds b = inorder a1 ++ b1 :: inorder c1 from hdec]
      simp
    have hpairmem : (k, rv b b1) ∈ content b :=
      (content_mem b).mpr ⟨b1, hb1mem, hv, rfl⟩
    have hrveq : rv b b1 = r := content_fst_inj b hsl hpairmem hkr
    rw [hres]
    refine ⟨by rw [hrveq], ?_⟩
    show (inorder (Tree.node a1 b1 c1)).map _ = _
    rw [inorder, ← hdec]
    rfl
  · intro k hk
    by_cases htnil : b.left_root = Tree.nil
    · have hfind : find (lv b) b.left_root k = Tree.nil := by
        rw [htnil]
        rfl
      have hred : at_left_or_default b k
          = ((insert_by_values ((erase_right_key { b with left_root := Tree.nil } 0).1) k 0).1,
             (rootId (insert_by_values ((erase_right_key { b with left_root := Tree.nil } 0).1) k 0).1.right_root).map
               (rv (insert_by_values ((erase_right_key { b with left_root := Tree.nil } 0).1) k 0).1)) := by
        rw [at_left_or_default, hfind]
      have h1 : inorder Tree.nil = leftIds b := by
        show ([] : List Nat) = inorder b.left_root
        rw [htnil]
        rfl
      obtain ⟨hWF1, hcont1, hlv1, hrv1⟩ := WF_roots b hWF Tree.nil b.right_root h1 rfl
      have hmiss := at_left_or_default_miss { b with left_root := Tree.nil } k hWF1
        (by rw [hlv1]; exact hk)
      rw [hred]
      exact ⟨hmiss.1, hmiss.2.trans (by rw [hcont1])⟩
    · obtain ⟨a1, b1, c1, hfind, hdec, _, _⟩ :=
        find_char (lv b) b.left_root k htnil hsl hnd
      have hv : lv b b1 ≠ k := by
        intro hx
        exact hk ((find_root_val (lv b) b.left_root k hsl hnd hfind).mp hx)
      have hred : at_left_or_default b k
          = ((insert_by_values ((erase_right_key { b with left_root := Tree.node a1 b1 c1 } 0).1) k 0).1,
             (rootId (insert_by_values ((erase_right_key { b with left_root := Tree.node a1 b1 c1 } 0).1) k 0).1.right_root).map
               (rv (insert_by_values ((erase_right_key { b with left_root := Tree.node a1 b1 c1 } 0).1) k 0).1)) := by
        rw [at_left_or_default, hfind]
        simp [hv]
      have h1 : inorder (Tree.node a1 b1 c1) = leftIds b := by
        rw [inorder]
        exact hdec.symm
      obtain ⟨hWF1, hcont1, hlv1, hrv1⟩ :=
        WF_roots b hWF (Tree.node a1 b1 c1) b.right_root h1 rfl
      have hmiss := at_left_or_default_miss { b with left_root := Tree.node a1 b1 c1 } k hWF1
        (by rw [hlv1]; exact hk)
      rw [hred]
      exact ⟨hmiss.1, hmiss.2.trans (by rw [hcont1])⟩
  · intro k l hlk
    obtain ⟨i, hi, hil, hir⟩ := (content_mem b).mp hlk
    simp only [Prod.fst, Prod.snd] at hil hir
    have hkmem : k ∈ rightVals b := by
      rw [← hir]
      exact List.mem_map_of_mem (rv b) (hperm.mem_iff.mp hi)
    have htne : b.right_root ≠ Tree.nil := by
      intro hx
      have hx2 : rightIds b = [] := by
        show inorder b.right_root = []
        rw [hx]
        rfl
      have := hperm.mem_iff.mp hi
      rw [hx2] at this
      simp at this
    obtain ⟨a1, b1, c1, hfind, hdec, _, _⟩ :=
      find_char (rv b) b.right_root k htne hsr hndr
    have hv : rv b b1 = k := (find_root_val (rv b) b.right_root k hsr hndr hfind).mpr hkmem
    have hres : at_right_or_default b k
        = ({ b with right_root := Tree.node a1 b1 c1 }, some (lv b b1)) := by
      rw [at_right_or_default, hfind]
      simp [hv]
    have hb1mem : b1 ∈ rightIds b := by
      rw [show rightIds b = inorder a1 ++ b1 :: inorder c1 from hdec]
      simp
    have hpairmem : (lv b b1, k) ∈ content b :=
      (content_mem b).mpr ⟨b1, hperm.mem_iff.mpr hb1mem, rfl, hv⟩
    have hlveq : lv b b1 = l := content_snd_inj b hWF hpairmem hlk
    rw [hres]
    refine ⟨by rw [hlveq], ?_⟩
    show (inorder b.left_root).map _ = _
    rfl
  · intro k hk
    by_cases htnil : b.right_root = Tree.nil
    · have hfind : find (rv b) b.right_root k = Tree.nil := by
        rw [htnil]
        rfl
      have hred : at_right_or_default b k
          = ((insert_by_values ((erase_left_key { b with right_root := Tree.nil } 0).1) 0 k).1,
             (rootId (insert_by_values ((erase_left_key { b with right_root := Tree.nil } 0).1) 0 k).1.left_root).map
               (lv (insert_by_values ((erase_left_key { b with right_root := Tree.nil } 0).1) 0 k).1)) := by
        rw [at_right_or_default, hfind]
      have h2 : inorder Tree.nil = rightIds b := by
        show ([] : List Nat) = inorder b.right_root
        rw [htnil]
        rfl
      obtain ⟨hWF1, hcont1, hlv1, hrv1⟩ :=
        WF_roots b hWF b.left_root Tree.nil rfl h2
      have hmiss := at_right_or_default_miss { b with right_root := Tree.nil } k hWF1
        (by rw [hrv1]; exact hk)
      rw [hred]
      exact ⟨hmiss.1, hmiss.2.trans (by rw [hcont1])⟩
    · obtain ⟨a1, b1, c1, hfind, hdec, _, _⟩ :=
        find_char (rv b) b.right_root k htnil hsr hndr
      have hv : rv b b1 ≠ k := by
        intro hx
        exact hk ((find_root_val (rv b) b.right_root k hsr hndr hfind).mp hx)
      have hred : at_right_or_default b k
          = ((insert_by_values ((erase_left_key { b with right_root := Tree.node a1 b1 c1 } 0).1) 0 k).1,
             (rootId (insert_by_values ((erase_left_key { b with right_root := Tree.node a1 b1 c1 } 0).1) 0 k).1.left_root).map
               (lv (insert_by_values ((erase_left_key { b with right_root := Tree.node a1 b1 c1 } 0).1) 0 k).1)) := by
        rw [at_right_or_default, hfind]
        simp [hv]
      have h2 : inorder (Tree.node a1 b1 c1) = rightIds b := by
        rw [inorder]
        exact hdec.symm
      obtain ⟨hWF1, hcont1, hlv1, hrv1⟩ :=
        WF_roots b hWF b.left_root (Tree.node a1 b1 c1) rfl h2
      have hmiss := at_right_or_default_miss { b with right_root := Tree.node a1 b1 c1 } k hWF1
        (by rw [hrv1]; exact hk)
      rw [hred]
      exact ⟨hmiss.1, hmiss.2.trans (by rw [hcont1])⟩

theorem c8_at_or_default_witness :
    (at_left_or_default exW 5).2 = some 0 ∧
    (content (at_left_or_default exW 5).1).Perm
      ((5, 0) :: (content exW).filter (fun p => p.2 != 0)) :=
  (c8_at_or_default_spec exW (by decide)).2.1 5 (by decide)

/-- Two-pair container whose Left maximum is the record with identifier 1. -/
def exV : bimap :=
  (insert_by_values ((insert_by_values emptyBimap 1 1).1) 2 2).1

/-- Claim C4 counterexample: erasing through a cursor the record holding the
Left maximum of a two-pair container does not return the end sentinel, as the
claim demands, but a cursor at the remaining record: erase of the source
merges the two subtrees of the splayed record and returns a cursor at the
merged root, which is the in-order successor only when both subtrees are
populated. -/
theorem c4_erase_cursor_counterexample :
    (find_left exV 2).2 = some 1 ∧
    leftVals exV = [1, 2] ∧
    lv exV 1 = 2 ∧
    (erase_left_cursor exV 1).2 = some 0 ∧
    (erase_left_cursor exV 1).2 ≠ none := by
  refine ⟨?_, ?_, ?_, ?_, ?_⟩ <;> decide

/-- Claim C4 as amended: erase through a cursor removes the record from both
trees and decrements the size by one; the returned cursor is the in-order
successor when the erased record was neither the minimum nor the maximum of
its side; it is the end sentinel exactly when the record was the only one;
when the record was the side minimum or maximum of a larger container the
cursor sits at some remaining record, not necessarily the successor and not
the end sentinel. Both cursor sides are covered. -/
theorem c4_erase_cursor_amended (b : bimap) (nid : Nat) (hWF : WF b) :
    (∀ s1 s2, leftIds b = s1 ++ nid :: s2 →
      ∀ b2 res, erase_left_cursor b nid = (b2, res) →
      leftIds b2 = s1 ++ s2 ∧
      rightIds b2 = (rightIds b).erase nid ∧
      content b2 = (content b).erase (lv b nid, rv b nid) ∧
      b2.elements_count = b.elements_count - 1 ∧
      (s1 ≠ [] → s2 ≠ [] → res = s2.head?) ∧
      (s1 = [] → s2 = [] → res = none) ∧
      (s1 = [] → s2 ≠ [] → ∃ j ∈ s2, res = some j) ∧
      (s2 = [] → s1 ≠ [] → ∃ j ∈ s1, res = some j)) ∧
    (∀ r1 r2, rightIds b = r1 ++ nid :: r2 →
      ∀ b2 res, erase_right_cursor b nid = (b2, res) →
      rightIds b2 = r1 ++ r2 ∧
      leftIds b2 = (leftIds b).erase nid ∧
      content b2 = (content b).erase (lv b nid, rv b nid) ∧
      b2.elements_count = b.elements_count - 1 ∧
      (r1 ≠ [] → r2 ≠ [] → res = r2.head?) ∧
      (r1 = [] → r2 = [] → res = none) ∧
      (r1 = [] → r2 ≠ [] → ∃ j ∈ r2, res = some j) ∧
      (r2 = [] → r1 ≠ [] → ∃ j ∈ r1, res = some j)) := by
  constructor
  · intro s1 s2 hsplit b2 res heq
    obtain ⟨h1, h2, h3, h4, _, h5, h6, h7, h8⟩ :=
      erase_left_cursor_spec b nid hWF s1 s2 hsplit b2 res heq
    exact ⟨h1, h2, h3, h4, h5, h6, h7, h8⟩
  · intro r1 r2 hsplit b2 res heq
    obtain ⟨h1, h2, h3, h4, _, h5, h6, h7, h8⟩ :=
      erase_right_cursor_spec b nid hWF r1 r2 hsplit b2 res heq
    exact ⟨h1, h2, h3, h4, h5, h6, h7, h8⟩

theorem c4_erase_cursor_witness :
    leftIds (erase_left_cursor exV 0).1 = [] ++ [1] ∧
    (erase_left_cursor exV 0).1.elements_count = exV.elements_count - 1 := by
  have h := (c4_erase_cursor_amended exV 0 (by decide)).1 [] [1] (by decide)
    (erase_left_cursor exV 0).1 (erase_left_cursor exV 0).2 rfl
  exact ⟨h.1, h.2.2.2.1⟩

/-- State obtained by three inserts and one Left-side find, after which the
record at the Left root holds the pair of 1 and 10 while the Right-side
maximum value is 30. -/
def exU : bimap :=
  (find_left ((insert_by_values ((insert_by_values ((insert_by_values
    emptyBimap 1 10).1) 2 30).1) 3 20).1) 1).1

/-- Claim C5 failing input: the decrement of a Right-side cursor at the end
sentinel reads tree->left_root, the Left root, instead of the Right root, and
then follows Right-side child pointers from that record; on this state it
lands on the record with right value 10 although the Right maximum is 30. The
Left-side retreat is correct, giving the Left maximum 3, which shows the
symmetric behavior the claim and the generic iterator require. -/
theorem c5_retreat_end_bug :
    rightVals exU = [10, 20, 30] ∧
    (end_retreat_right exU).map (rv exU) = some 10 ∧
    (end_retreat_left exU).map (lv exU) = some 3 := by
  refine ⟨?_, ?_, ?_⟩ <;> decide

/-- One-pair container used to exhibit the move-constructor defect. -/
def exM : bimap := (insert_by_values emptyBimap 1 2).1

/-- Claim C2 failing input: the move constructor assigns left_root from the
source twice, so the second assignment copies the already nulled pointer, and
it never assigns right_root or clears the source right root. Moving from a
one-pair container yields a new container with a null Left root and no
reachable pairs despite a count of 1, while the source keeps its Right root. -/
theorem c2_move_constructor_bug :
    content exM = [(1, 2)] ∧
    (move_construct exM Tree.nil).1.left_root = Tree.nil ∧
    (move_construct exM Tree.nil).1.elements_count = 1 ∧
    content (move_construct exM Tree.nil).1 = [] ∧
    (move_construct exM Tree.nil).2.right_root ≠ Tree.nil ∧
    (move_construct exM Tree.nil).2.elements_count = 0 := by
  refine ⟨?_, ?_, ?_, ?_, ?_, ?_⟩ <;> decide

/-- Claim C1 failing sequence: insert one pair, then move-construct. The new
container reports size 1 while its Left tree holds no records, so the stated
size and membership invariants fail after a public operation; the defect is
the move-constructor slip exhibited for claim C2. -/
theorem c1_invariants_broken_by_move :
    (move_construct exM Tree.nil).1.elements_count = 1 ∧
    leftIds (move_construct exM Tree.nil).1 = [] ∧
    ¬ WF (move_construct exM Tree.nil).1 := by
  refine ⟨?_, ?_, ?_⟩ <;> decide

end BimapImpl
